import Mathlib

/-!
Shallow embedding of the simplicial-homology triangulation core
(`triangulation.py`): the memoizing `VertexCache`, the `Vertex` adjacency
graph with its cached minimiser flag, the `Cell` container, and the
`Complex` construction / subdivision machinery.

Conventions of the embedding:
* A coordinate key (Python tuple of floats; here exact rationals) is a
  `List ℚ`.  Vertex identity coincides with the key, which is what the
  cache's singleton guarantee provides in the source.
* Python's mutable object graph is threaded as explicit state: the single
  `VertexCache` holds every `Vertex`, and neighbour sets (`v.nn`) store
  coordinate keys.  `set.add` without effect on duplicates is modelled by
  append-if-absent, so `nn` lists never hold duplicates.
* A raised Python exception is an `err` flag on the state; every stateful
  operation first checks it and leaves the state untouched when it is set
  (the source's control flow never reaches that operation).  The flag
  remembers which kind of exception was raised, since
  `Complex.split_generation` catches exactly `IndexError`.
* Objective-function invocations are logged in `evals` (one entry per
  call, in call order): this is the observation needed to state the
  "evaluated exactly once per key" contract; it has no influence on the
  rest of the state.
-/

set_option maxRecDepth 4000

/- Batteries ships the rational-number arithmetic `@[irreducible]`, which
prevents `decide` from evaluating the embedded program on concrete
inputs; restore the definitional behaviour inside this development. -/
attribute [local semireducible] Rat.add Rat.mul Rat.sub Rat.inv

abbrev Key := List ℚ

/-- The kinds of Python exceptions the embedded code can raise. -/
inductive PyErr where
  | indexError
  | keyError
  | typeError
  | funcErr (msg : String)
  deriving DecidableEq

/-- `Vertex` (triangulation.py lines 994-1056): coordinate key `x`,
`order = sum(x)`, function value `f` (evaluated once at creation),
neighbour keys `nn`, cached minimiser flag `min` with dirty bit
`check_min`, and the cache index `I`.  In the source the `min` attribute
does not exist until first assigned; it is only ever read with
`check_min = false`, which in every reachable state implies it has been
assigned, so the creation-time value `false` here is never observed. -/
structure Vertex where
  x : Key
  order : ℚ
  f : ℚ
  nn : List Key
  min : Bool
  check_min : Bool
  I : Int
  deriving DecidableEq

instance : Inhabited Vertex :=
  ⟨{ x := [], order := 0, f := 0, nn := [], min := false, check_min := true, I := 0 }⟩

/-- `VertexCache` (lines 1058-1087) together with the error flag and the
log of objective invocations. `func` returns `Except` so that a raising
objective can be represented. -/
structure VC where
  func : Key → Except String ℚ
  bounds : Option (List (ℚ × ℚ))
  cache : List Vertex
  Index : Int
  evals : List Key
  err : Option PyErr

def emptyVC (func : Key → Except String ℚ) (bounds : Option (List (ℚ × ℚ))) : VC :=
  { func := func, bounds := bounds, cache := [], Index := -1, evals := [], err := none }

def setErrVC (s : VC) (e : PyErr) : VC :=
  if s.err.isSome then s else { s with err := some e }

/-- Dictionary lookup `self.cache[x]` without the creating branch. -/
def findVertex (s : VC) (x : Key) : Option Vertex :=
  s.cache.find? (fun v => decide (v.x = x))

/-- Keys currently stored, in creation order. -/
def keysOf (s : VC) : List Key :=
  s.cache.map (fun v => v.x)

/-- Replace the (unique) cache entry whose key is `x`.  All call sites
supply a vertex with the same `x`, mirroring in-place mutation of the
Python object. -/
def setV (s : VC) (x : Key) (v : Vertex) : VC :=
  { s with cache := s.cache.map (fun w => if w.x = x then v else w) }

/-- Bound rescaling done by `Vertex.__init__` (lines 999-1005). -/
def rescale (bounds : Option (List (ℚ × ℚ))) (x : Key) : Key :=
  match bounds with
  | none => x
  | some bs =>
      (List.range x.length).map (fun i =>
        if i < bs.length then
          (x.getD i 0) * ((bs.getD i (0, 0)).2 - (bs.getD i (0, 0)).1) + (bs.getD i (0, 0)).1
        else x.getD i 0)

/-- `VertexCache.__getitem__` (lines 1071-1087): return the cached vertex,
or increment `Index`, build a `Vertex` (evaluating the objective on the
rescaled coordinates exactly once) and store it.  A raising objective
leaves `Index` incremented and the cache unchanged.  Returns the state
and the vertex handed back to the caller. -/
def lookupV (s : VC) (x : Key) : VC × Option Vertex :=
  if s.err.isSome then (s, none) else
  match findVertex s x with
  | some v => (s, some v)
  | none =>
      let idx := s.Index + 1
      let x_a := rescale s.bounds x
      match s.func x_a with
      | Except.error e =>
          ({ s with Index := idx, evals := s.evals ++ [x], err := some (PyErr.funcErr e) }, none)
      | Except.ok fv =>
          let v : Vertex :=
            { x := x, order := x.sum, f := fv, nn := [], min := false, check_min := true, I := idx }
          ({ s with Index := idx, evals := s.evals ++ [x], cache := s.cache ++ [v] }, some v)

def lookup (s : VC) (x : Key) : VC :=
  (lookupV s x).1

/-- Function value of a cached vertex; all call sites look up keys that
are present (the source holds direct object references). -/
def fOf (s : VC) (k : Key) : ℚ :=
  match findVertex s k with
  | some v => v.f
  | none => 0

def nnOf (s : VC) (k : Key) : List Key :=
  match findVertex s k with
  | some v => v.nn
  | none => []

def IOf (s : VC) (k : Key) : Int :=
  match findVertex s k with
  | some v => v.I
  | none => 0

def minOf (s : VC) (k : Key) : Bool :=
  match findVertex s k with
  | some v => v.min
  | none => false

def checkMinOf (s : VC) (k : Key) : Bool :=
  match findVertex s k with
  | some v => v.check_min
  | none => false

/-- `Vertex.minimiser` (lines 1048-1056): recompute
`all(self.f <= v.f for v in self.nn)` when the dirty bit is set and cache
it; otherwise return the cached flag. -/
def minimiser (s : VC) (k : Key) : VC × Bool :=
  if s.err.isSome then (s, false) else
  match findVertex s k with
  | none => (s, false)
  | some v =>
      if v.check_min then
        let m := v.nn.all (fun w => decide (v.f ≤ fOf s w))
        (setV s k { v with min := m, check_min := false }, m)
      else (s, v.min)

/-- `Vertex.connect` (lines 1029-1040), `a.connect(b)`: when `b` is a
different, not yet adjacent vertex, insert the edge in both neighbour
sets, then call `self.minimiser()`; when that returns true, overwrite
`b`'s cached flag with a clean `false`. -/
def connect (s : VC) (a b : Key) : VC :=
  if s.err.isSome then s else
  match findVertex s a, findVertex s b with
  | some va, some _ =>
      if b ≠ a ∧ b ∉ va.nn then
        let s1 := setV s a { va with nn := va.nn ++ [b] }
        let s2 :=
          match findVertex s1 b with
          | some vb1 =>
              setV s1 b { vb1 with nn := if a ∈ vb1.nn then vb1.nn else vb1.nn ++ [a] }
          | none => s1
        let p := minimiser s2 a
        if p.2 then
          match findVertex p.1 b with
          | some vb3 => setV p.1 b { vb3 with min := false, check_min := false }
          | none => p.1
        else p.1
      else s
  | _, _ =>
      -- unreachable: connect is only invoked on vertices handed out by the cache
      s

/-- `Vertex.disconnect` (lines 1042-1046): when adjacent, remove the edge
from both sides (`set.remove` raises `KeyError` on an absent element) and
mark the receiver's minimiser cache dirty. -/
def disconnect (s : VC) (a b : Key) : VC :=
  if s.err.isSome then s else
  match findVertex s a with
  | none => s
  | some va =>
      if b ∈ va.nn then
        let s1 := setV s a { va with nn := va.nn.erase b }
        let s2 :=
          match findVertex s1 b with
          | some vb =>
              if a ∈ vb.nn then setV s1 b { vb with nn := vb.nn.erase a }
              else setErrVC s1 PyErr.keyError
          | none => setErrVC s1 PyErr.keyError
        match s2.err with
        | some _ => s2
        | none =>
            match findVertex s2 a with
            | some va2 => setV s2 a { va2 with check_min := true }
            | none => s2
      else s

/-- The initial cell being built by `Complex.n_cube`: the vertex cache and
the ordered vertex (key) list of `C0`. -/
structure NState where
  V : VC
  C0C : List Key

/-- `self.C0.add_vertex(self.V[k])` (lines 76-77, 117, 140 together with
`Cell.add_vertex`, lines 867-869): look the key up (possibly creating the
vertex) and append it to the cell unless already present.  Identity
membership in the Python list coincides with key membership because the
cache hands out one object per key. -/
def addV (n : NState) (k : Key) : NState :=
  let s := lookup n.V k
  if s.err.isSome then { n with V := s }
  else { V := s, C0C := if k ∈ n.C0C then n.C0C else n.C0C ++ [k] }

/-- `Complex.perm` (lines 102-130).  The recursion is driven by a fuel
argument; `perm` is always invoked with enough fuel (the recursion depth
is bounded by `dim - i_parents.length`, and at that depth the iteration
range is empty, which a fuel-0 return also models). -/
def perm (dim : Nat) : Nat → List Nat → List Key → Key → NState → NState
  | 0, _, _, _, n => n
  | Nat.succ fuel, i_parents, x_parents, xi, n =>
      ((List.range dim).filter (fun x => decide (x ∉ i_parents))).foldl
        (fun n0 i =>
          let xi2 := xi.set i 1
          let n1 := addV n0 xi2
          let n2 := { n1 with V := connect (lookup (lookup n1.V xi2) xi) xi2 xi }
          let n3 := x_parents.foldl
            (fun m x_ip => { m with V := connect (lookup (lookup m.V xi2) x_ip) xi2 x_ip }) n2
          perm dim fuel (i_parents ++ [i]) (x_parents ++ [xi]) xi2 n3)
        n

/-- `Complex.perm_symmetry` (lines 132-156): walk the single monotone
chain flipping coordinates `0 .. dim-1` in order.  `xi2[i_s] = 1` on an
out-of-range index is Python's `IndexError` (reached when `dim = 0`). -/
def permSym (dim : Nat) : Nat → Nat → List Key → Key → NState → NState
  | 0, _, _, _, n => n
  | Nat.succ fuel, i_s, x_parents, xi, n =>
      if i_s < xi.length then
        let xi2 := xi.set i_s 1
        let n1 := addV n xi2
        let n2 := { n1 with V := connect (lookup (lookup n1.V xi2) xi) xi2 xi }
        let n3 := x_parents.foldl
          (fun m x_ip => { m with V := connect (lookup (lookup m.V xi2) x_ip) xi2 x_ip }) n2
        if i_s + 1 = dim then n3
        else permSym dim fuel (i_s + 1) (x_parents ++ [xi]) xi2 n3
      else { n with V := setErrVC n.V PyErr.indexError }

/-- `Complex.n_cube` (lines 65-100): seed the cell with the origin and
supremum corners, then run the permutation construction. -/
def nCube (dim : Nat) (symmetry : Bool) (V0 : VC) : NState × Key × Key :=
  let origin : Key := List.replicate dim 0
  let suprenum : Key := List.replicate dim 1
  let n0 : NState := { V := V0, C0C := [] }
  let n1 := addV n0 origin
  let n2 := addV n1 suprenum
  let x_parents : List Key := [origin]
  let n3 :=
    if symmetry then permSym dim (dim + 1) 0 x_parents origin n2
    else perm dim (dim + 1) [] x_parents origin n2
  (n3, origin, suprenum)

/-- `Cell` (lines 843-895): ordered vertex (key) list with origin,
supremum, optional centroid and the lazily cached homology rank.
`Simplex` (lines 918-991) is structurally identical. -/
structure Cell where
  p_gen : Nat
  p_hgr : Option Int
  p_hgr_h : Option Int
  hg_n : Option Int
  C : List Key
  origin : Key
  suprenum : Key
  centroid : Option Key
  deriving DecidableEq

/-- `Cell.add_vertex` for an already-created vertex (lines 867-869). -/
def cellAdd (cell : Cell) (k : Key) : Cell :=
  if k ∈ cell.C then cell else { cell with C := cell.C ++ [k] }

/-- `Cell.homology_group_rank` (lines 871-884): count the cell's vertices
whose `minimiser()` is true, caching the result in `hg_n`; the minimiser
calls thread the vertex-cache state. -/
def homology_group_rank (s : VC) (cell : Cell) : VC × Cell × Int :=
  match cell.hg_n with
  | some n => (s, cell, n)
  | none =>
      let p := cell.C.foldl
        (fun (acc : VC × Int) k =>
          let q := minimiser acc.1 k
          (q.1, if q.2 then acc.2 + 1 else acc.2)) (s, 0)
      (p.1, { cell with hg_n := some p.2 }, p.2)

/-- `Complex.graph_map` (lines 231-239): for each vertex of the initial
cell, in order, the list of its neighbours' cache indices. -/
def graphMap (s : VC) (C0C : List Key) : List (List Int) :=
  C0C.map (fun k => (nnOf s k).map (fun w => IOf s w))

/-- `Complex` state (lines 17-59): cells stored by generation in `H`, the
shared cache `V`, the initial cell, the adjacency template `graph`, and
the homology bookkeeping. -/
structure Cmplx where
  dim : Nat
  symmetry : Bool
  gen : Nat
  H : List (List Cell)
  V : VC
  C0 : Cell
  graph : List (List Int)
  hgr : Int
  hgrd : Int
  origin : Key
  suprenum : Key
  centroid : Option Key

/-- `Complex.__init__` (lines 18-59): build the n-cube, set the symmetric
centroid to the last vertex of `C0` when `symmetry` is set (the
`add_centroid` call is disabled under `if 0:`), store `C0` as generation
0, compute its homology rank, and derive the adjacency template.  The
source appends `C0` to `H` before computing the rank, which mutates the
same object; here the rank is computed first and the updated cell stored
in both places, producing the identical final state. -/
def initComplex (dim : Nat) (func : Key → Except String ℚ) (symmetry : Bool)
    (bounds : Option (List (ℚ × ℚ))) : Cmplx :=
  let p := nCube dim symmetry (emptyVC func bounds)
  let n := p.1
  let origin := p.2.1
  let suprenum := p.2.2
  let centroid : Option Key := if symmetry then n.C0C.getLast? else none
  let C0 : Cell :=
    { p_gen := 0, p_hgr := some 0, p_hgr_h := some 0, hg_n := none,
      C := n.C0C, origin := origin, suprenum := suprenum, centroid := centroid }
  let q := homology_group_rank n.V C0
  { dim := dim, symmetry := symmetry, gen := 0, H := [[q.2.1]], V := q.1, C0 := q.2.1,
    graph := graphMap q.1 q.2.1.C, hgr := q.2.2, hgrd := 0,
    origin := origin, suprenum := suprenum, centroid := centroid }

/-- Python list indexing with negative-index wrap-around; `none` is an
`IndexError`. -/
def pyGet? {α : Type} (l : List α) (j : Int) : Option α :=
  if 0 ≤ j then l.get? j.toNat
  else if (-j).toNat ≤ l.length then l.get? (l.length - (-j).toNat)
  else none

/-- The template-replay loop of `construct_hypercube` (lines 411-414):
`for i, connections in enumerate(self.graph): for j in connections:
self.V[V_new[i]].connect(self.V[V_new[j]])`. -/
def connectLoop (c : Cmplx) (V_new : List Key) : Cmplx :=
  c.graph.enum.foldl
    (fun c0 p =>
      p.2.foldl
        (fun c1 j =>
          if c1.V.err.isSome then c1 else
          match V_new.get? p.1, pyGet? V_new j with
          | some ki, some kj =>
              { c1 with V := connect (lookup (lookup c1.V ki) kj) ki kj }
          | _, _ => { c1 with V := setErrVC c1.V PyErr.indexError })
        c0)
    c

/-- One iteration of the vertex-transformation loop of
`construct_hypercube` (lines 396-404): `t1 + t2 = origin*(1-u) +
suprenum*u` componentwise, looked up through the cache and appended to
the cell under construction and to `V_new`.  A raising lookup skips the
appends (the loop is aborted by the freeze flag). -/
def chStep (origin suprenum : Key) (acc : Cmplx × Cell × List Key) (vk : Key) :
    Cmplx × Cell × List Key :=
  let t1 := List.zipWith (fun o u => o - o * u) origin vk
  let t2 := List.zipWith (fun sp u => sp * u) suprenum vk
  let vec := List.zipWith (fun a b => a + b) t1 t2
  let V2 := lookup acc.1.V vec
  if V2.err.isSome then ({ acc.1 with V := V2 }, acc.2.1, acc.2.2)
  else ({ acc.1 with V := V2 }, cellAdd acc.2.1 vec, acc.2.2 ++ [vec])

/-- `C_new.centroid` of `construct_hypercube` (line 388): the midpoint of
origin and supremum, componentwise. -/
def chCtr (origin suprenum : Key) : Key :=
  List.zipWith (fun a b => (a + b) / 2) origin suprenum

/-- The fresh child cell built at the top of `construct_hypercube`
(lines 387-388). -/
def chNewCell (gen : Nat) (hgr p_hgr_h : Option Int) (origin suprenum : Key) : Cell :=
  { p_gen := gen, p_hgr := hgr, p_hgr_h := p_hgr_h, hg_n := none,
    C := [], origin := origin, suprenum := suprenum,
    centroid := some (chCtr origin suprenum) }

/-- The centroid lookup and append of `construct_hypercube`
(lines 406-408); skipped when the lookup raises. -/
def chCentroid (ctr : Key) (r1 : Cmplx × Cell × List Key) : Cmplx × Cell × List Key :=
  let V3 := lookup r1.1.V ctr
  if V3.err.isSome then ({ r1.1 with V := V3 }, r1.2.1, r1.2.2)
  else ({ r1.1 with V := V3 }, cellAdd r1.2.1 ctr, r1.2.2 ++ [ctr])

/-- The tail of `construct_hypercube` (lines 410-434): replay the
adjacency template over `V_new` and append the new cell to `H[gen]`
(skipped when an exception is pending; a missing `H[gen]` entry would be
an `IndexError`). -/
def chFinish (gen : Nat) (r2 : Cmplx × Cell × List Key) : Cmplx :=
  let c3 := connectLoop r2.1 r2.2.2
  if c3.V.err.isSome then c3
  else if hgen : gen < c3.H.length then
    { c3 with H := c3.H.set gen (c3.H.get ⟨gen, hgen⟩ ++ [r2.2.1]) }
  else { c3 with V := setErrVC c3.V PyErr.indexError }

/-- `Complex.construct_hypercube` (lines 374-434): build the child cell by
affinely transforming each of `C0`'s vertices but the last, add the
midpoint centroid, replay the adjacency template, and append the finished
cell to `H[gen]`.  An objective failure during a lookup aborts the
remainder, so the cell is not appended. -/
def constructHypercube (c : Cmplx) (origin suprenum : Key) (gen : Nat)
    (hgr p_hgr_h : Option Int) : Cmplx :=
  if c.V.err.isSome then c else
  chFinish gen (chCentroid (chCtr origin suprenum)
    ((c.C0.C.dropLast).foldl (chStep origin suprenum)
      (c, chNewCell gen hgr p_hgr_h origin suprenum, [])))

/-- One row of the parent-edge severing loop of `sub_generate_cell`
(lines 280-286): disconnect the parent cell's vertex at position `i` from
the vertices at the template row's indices. -/
def dcStep (C_i : Cell) (c0 : Cmplx) (p : Nat × List Int) : Cmplx :=
  p.2.foldl
    (fun cv j =>
      if cv.V.err.isSome then cv else
      match C_i.C.get? p.1, pyGet? C_i.C j with
      | some ka, some kb => { cv with V := disconnect cv.V ka kb }
      | _, _ => { cv with V := setErrVC cv.V PyErr.indexError })
    c0

/-- `Complex.sub_generate_cell` (lines 249-293): `tuple(C_i.centroid)`
raises `TypeError` when the centroid attribute is still `None`; otherwise
ensure `H[gen]` exists, build one child hypercube per vertex of `C_i`
except the last (origin = the parent's stored centroid, supremum = that
vertex), then sever the parent's template edges, stopping at the centroid
index. -/
def subGenerateCell (c : Cmplx) (C_i : Cell) (gen : Nat) : Cmplx :=
  if c.V.err.isSome then c else
  match C_i.centroid with
  | none => { c with V := setErrVC c.V PyErr.typeError }
  | some origin_new =>
      let centroid_index := C_i.C.length - 1
      let c1 := if gen < c.H.length then c else { c with H := c.H ++ [[]] }
      let c2 := (C_i.C.dropLast).foldl
        (fun acc vk => constructHypercube acc origin_new vk gen C_i.hg_n C_i.p_hgr_h) c1
      (c2.graph.enum.take centroid_index).foldl (dcStep C_i) c2

/-- `Complex.split_generation` (lines 358-371): run `sub_generate_cell`
on every cell of the current generation; the surrounding
`try/except IndexError: pass` swallows a missing `H[self.gen]` (and any
`IndexError` escaping the loop body), after which `self.gen` is still
incremented.  Any other exception propagates before the increment. -/
def splitGeneration (c : Cmplx) : Cmplx :=
  if c.V.err.isSome then c else
  let c1 :=
    match c.H.get? c.gen with
    | none => c
    | some cells => cells.foldl (fun acc cell => subGenerateCell acc cell (c.gen + 1)) c
  if c1.V.err = some PyErr.indexError then
    { c1 with V := { c1.V with err := none }, gen := c1.gen + 1 }
  else if c1.V.err.isSome then c1
  else { c1 with gen := c1.gen + 1 }

/-- Wrap a total objective as an `Except`-valued one (an objective that
never raises). -/
def okF (f : Key → ℚ) : Key → Except String ℚ := fun y => Except.ok (f y)

/-- Run a sequence of cache lookups (`V[x]` calls), keeping only the
state. -/
def runLookups (s : VC) (ks : List Key) : VC :=
  ks.foldl lookup s

/-- Non-symmetric complex over the unit cube with a total objective. -/
def cND (d : Nat) (f : Key → ℚ) : Cmplx :=
  initComplex d (okF f) false none

/-- Symmetry-mode complex with a total objective. -/
def cSym (d : Nat) (f : Key → ℚ) : Cmplx :=
  initComplex d (okF f) true none

/-- The spec's concrete scenario objective
`f(x0, x1) = x0^2 + x1^2 + 2*x0`. -/
def f9 : Key → Except String ℚ :=
  okF (fun x => x.getD 0 0 * x.getD 0 0 + x.getD 1 0 * x.getD 1 0 + 2 * x.getD 0 0)

/-- The dimension-2, no-bounds, non-symmetric complex of the scenario. -/
def c9 : Cmplx := initComplex 2 f9 false none

/-- A state with two fresh unconnected vertices `[0]` and `[1]`, both
with objective value `0`. -/
def sAB : VC := lookup (lookup (emptyVC (okF (fun _ => 0)) none) [0]) [1]

/-- `sAB` after `V[[0]].connect(V[[1]])`. -/
def sC : VC := connect sAB [0] [1]

/-- The cache entry of `[0]` in `sAB`, spelled out. -/
def vA : Vertex :=
  { x := [0], order := ([0] : Key).sum, f := 0, nn := [], min := false, check_min := true, I := 0 }

/-- The cache entry of `[1]` in `sAB`, spelled out. -/
def vB : Vertex :=
  { x := [1], order := ([1] : Key).sum, f := 0, nn := [], min := false, check_min := true, I := 1 }

/-- An objective raising exactly at the coordinate `(1, 1/2)`, the second
child centroid produced when splitting the symmetric dimension-2 complex. -/
def fbad : Key → Except String ℚ :=
  fun x => if x = [(1 : ℚ), (1 : ℚ) / 2] then Except.error "boom" else Except.ok 0

/-- Symmetric dimension-2 complex whose first generation split hits the
raising coordinate midway. -/
def c6c : Cmplx := initComplex 2 fbad true none

/-- The bookkeeping invariant of a cache driven by a never-raising
objective: the log of objective calls is exactly the list of stored keys,
which has no duplicates. -/
def CacheLog (f : Key → ℚ) (s : VC) : Prop :=
  s.func = okF f ∧ s.err = none ∧ s.evals = keysOf s ∧ (keysOf s).Nodup

/-- A coordinate key that is a 0/1 vector of length `d`. -/
def isBinary (d : Nat) (k : Key) : Prop :=
  k.length = d ∧ ∀ q ∈ k, q = 0 ∨ q = 1

/-- The 0/1 vector of length `d` whose ones sit exactly on `S`. -/
def XF (d : Nat) (S : Finset ℕ) : Key :=
  (List.range d).map (fun j => if j ∈ S then (1 : ℚ) else 0)

/-- The 0/1 vector of length `d` with ones on the first `j` coordinates,
the shape walked by `perm_symmetry`. -/
def onesUpTo (d j : Nat) : Key :=
  (List.range d).map (fun i => if i < j then (1 : ℚ) else 0)

/-- The cache contents (in creation order) midway through
`perm_symmetry`: origin, supremum, then the strict chain prefixes. -/
def symList (d j : Nat) : List Key :=
  [onesUpTo d 0, onesUpTo d d] ++ (List.range j).map (fun t => onesUpTo d (t + 1))

/-- The structural skeleton of the cache: keys and indices in storage
order.  Graph operations (`connect`, `disconnect`, `minimiser`) mutate
only `nn`/`min`/`check_min`, so they leave the skeleton unchanged. -/
def skel (s : VC) : List (Key × Int) :=
  s.cache.map (fun v => (v.x, v.I))

/-- Every neighbour key mentioned by a cached vertex is itself cached. -/
def nnClosed (s : VC) : Prop :=
  ∀ v ∈ s.cache, ∀ w ∈ v.nn, w ∈ keysOf s

/-- Invariant of the vertex cache during the n-cube construction: the
objective is the wrapped total `f` and has not raised, stored indices
equal storage positions, the index counter trails the cache length,
neighbour sets only mention stored keys, and the stored keys are
distinct 0/1 vectors of length `d`. -/
structure VInv (d : Nat) (f : Key → ℚ) (s : VC) : Prop where
  func_eq : s.func = okF f
  err_none : s.err = none
  idx : ∀ i : Fin s.cache.length, (s.cache.get i).I = (i : Nat)
  index_eq : s.Index = (s.cache.length : Int) - 1
  nn_closed : nnClosed s
  key_nodup : (keysOf s).Nodup
  binary : ∀ k ∈ keysOf s, isBinary d k

/-- Invariant of the full n-cube construction state: the cache invariant
together with the cell's vertex list coinciding positionally with the
cache. -/
structure NInv (d : Nat) (f : Key → ℚ) (n : NState) : Prop where
  vinv : VInv d f n.V
  c0_keys : n.C0C = keysOf n.V

/-- The loop body of `Complex.perm` (lines 110-130), named so the
recursion can be analysed as a fold. -/
def permStep (dim fuel : Nat) (i_parents : List Nat) (x_parents : List Key)
    (xi : Key) (n0 : NState) (i : Nat) : NState :=
  let xi2 := xi.set i 1
  let n1 := addV n0 xi2
  let n2 := { n1 with V := connect (lookup (lookup n1.V xi2) xi) xi2 xi }
  let n3 := x_parents.foldl
    (fun m x_ip => { m with V := connect (lookup (lookup m.V xi2) x_ip) xi2 x_ip }) n2
  perm dim fuel (i_parents ++ [i]) (x_parents ++ [xi]) xi2 n3

/-- The `V_new` list accumulated by `construct_hypercube` (lines 396-408)
just before the adjacency template is replayed over it. -/
def chVNew (c : Cmplx) (origin suprenum : Key) (gen : Nat)
    (hgr p_hgr_h : Option Int) : List Key :=
  (chCentroid (chCtr origin suprenum)
    ((c.C0.C.dropLast).foldl (chStep origin suprenum)
      (c, chNewCell gen hgr p_hgr_h origin suprenum, []))).2.2

/-! ## Claim theorems -/

/-- Claim C9: for dimension 2 with objective `f(x0,x1) = x0^2 + x1^2 + 2*x0`,
no bounds and no symmetry, in the initial complex the vertex `(0,0)` is
adjacent to the other three corners `(1,0)`, `(0,1)` and `(1,1)`, it is the
only vertex of the root cell whose minimiser predicate is true, and
`homology_group_rank()` of the root cell returns exactly `1`. -/
theorem c9_root_cell_minimiser_and_rank :
    c9.C0.C = ([[0, 0], [1, 1], [1, 0], [0, 1]] : List Key) ∧
    nnOf c9.V [0, 0] = ([[1, 0], [1, 1], [0, 1]] : List Key) ∧
    (minimiser c9.V [0, 0]).2 = true ∧
    (minimiser c9.V [1, 1]).2 = false ∧
    (minimiser c9.V [1, 0]).2 = false ∧
    (minimiser c9.V [0, 1]).2 = false ∧
    (homology_group_rank c9.V c9.C0).2.2 = 1 := by decide

/-- Claim C5, the code evaluated at the failing input: on a non-symmetric
complex (here dimension 1) the very first `split_generation` raises
`TypeError` — `sub_generate_cell` evaluates `tuple(C_i.centroid)` and the
root cell's centroid attribute is still `None` because the constructor's
`add_centroid()` call is disabled — so no child cells with the
spec-described midpoint origin are ever produced, and the generation
counter is not advanced. -/
theorem c5_split_generation_typeerror_at_root :
    (splitGeneration (cND 1 (fun _ => 0))).V.err = some PyErr.typeError ∧
    (splitGeneration (cND 1 (fun _ => 0))).gen = 0 ∧
    ((splitGeneration (cND 1 (fun _ => 0))).H.getD 1 []).length = 0 := by decide

/-- Claim C6 counterexample: splitting the symmetric dimension-2 complex
with an objective that raises at the second child's centroid `(1, 1/2)`
aborts `split_generation` with the objective's error, yet the first,
fully wired child cell remains stored in the next generation's list
`H[1]` — the stored state is neither the completed step nor the state
before the call. -/
theorem c6_counterexample_child_retained_on_failure :
    c6c.V.err = none ∧ c6c.H.length = 1 ∧
    (splitGeneration c6c).V.err = some (PyErr.funcErr "boom") ∧
    (splitGeneration c6c).gen = 0 ∧
    ((splitGeneration c6c).H.getD 1 []).length = 1 := by decide

/-- Claim C7 counterexample: constructing a complex with `dim = 0` raises
no exception at all — `Complex.__init__` performs no dimension
validation, so a complex object is produced for a non-positive dimension. -/
theorem c7_counterexample_dim_zero_succeeds :
    (cND 0 (fun _ => 0)).V.err = none := by decide

/-- Claim C7 amended: construction does not fail fast on non-positive
dimension; for `dim = 0` (any objective) it completes without raising and
produces a complex whose cache and initial cell hold exactly one vertex,
the empty coordinate tuple.  (Negative dimensions cannot be formed here:
`numpy.zeros` rejects them with a `ValueError`, which is outside the
`Nat`-dimension model.) -/
theorem c7_amended_dim_zero_single_vertex :
    ∀ f : Key → ℚ,
      (cND 0 f).V.err = none ∧ (cND 0 f).V.cache.length = 1 ∧
      (cND 0 f).C0.C = [([] : Key)] := by
  intro f
  exact ⟨rfl, rfl, rfl⟩

/-- Claim C3 counterexample: take two fresh cached vertices `[0]` and `[1]`
with equal objective value `0` and run `V[[0]].connect(V[[1]])`.  The
connect call stores a clean `false` in `[1]`'s minimiser cache, so
`minimiser()` on `[1]` returns `false` even though its value is less than
or equal to the value of every current neighbour. -/
theorem c3_counterexample_stale_minimiser :
    (minimiser sC [1]).2 = false ∧
    ((nnOf sC [1]).all (fun w => decide (fOf sC [1] ≤ fOf sC w))) = true := by decide

/-- Claim C3 amended: `minimiser()` agrees with the predicate
"`v.f ≤ w.f` for every current neighbour `w`" whenever the vertex's dirty
bit is set at the moment of the call; when the dirty bit is clear it
returns the cached flag unchanged (and leaves the state untouched), and
that cached flag can disagree with the predicate after connect/disconnect
sequences. -/
theorem c3_amended_minimiser_dirty_bit (s : VC) (k : Key) (v : Vertex)
    (hs : s.err = none) (hv : findVertex s k = some v) :
    (v.check_min = true →
      (minimiser s k).2 = v.nn.all (fun w => decide (v.f ≤ fOf s w))) ∧
    (v.check_min = false → (minimiser s k).2 = v.min ∧ (minimiser s k).1 = s) := by
  constructor
  · intro hc; simp [minimiser, hs, hv, hc]
  · intro hc; simp [minimiser, hs, hv, hc]

/-- Witness for the amended C3 theorem at the concrete state `sAB`. -/
theorem c3_amended_minimiser_dirty_bit_witness :
    (vA.check_min = true →
      (minimiser sAB [0]).2 = vA.nn.all (fun w => decide (vA.f ≤ fOf sAB w))) ∧
    (vA.check_min = false → (minimiser sAB [0]).2 = vA.min ∧ (minimiser sAB [0]).1 = sAB) :=
  c3_amended_minimiser_dirty_bit sAB [0] vA (by decide) (by rfl)

/-- Claim C4 counterexample: in the same two-vertex state, the successful
`connect` leaves the dirty bit of both endpoints clear (`[0]`'s flag was
eagerly recomputed, `[1]`'s cache was overwritten with a clean `false`),
and the successful `disconnect` marks only the receiving endpoint `[0]`
dirty while `[1]`'s dirty bit stays clear. -/
theorem c4_counterexample_dirty_marking :
    nnOf sC [0] = [[1]] ∧ checkMinOf sC [0] = false ∧ checkMinOf sC [1] = false ∧
    nnOf (disconnect sC [0] [1]) [0] = [] ∧
    checkMinOf (disconnect sC [0] [1]) [0] = true ∧
    checkMinOf (disconnect sC [0] [1]) [1] = false := by decide

theorem findVertex_key {s : VC} {x : Key} {v : Vertex} (h : findVertex s x = some v) :
    v.x = x := by
  have := List.find?_some h
  simpa using this

theorem find?_map_ite (l : List Vertex) (x y : Key) (v : Vertex) (hvx : v.x = x) :
    (l.map (fun w => if w.x = x then v else w)).find? (fun w => decide (w.x = y)) =
      if y = x then (l.find? (fun w => decide (w.x = x))).map (fun _ => v)
      else l.find? (fun w => decide (w.x = y)) := by
  induction l with
  | nil => by_cases hyx : y = x <;> simp [hyx]
  | cons w t ih =>
      simp only [List.map_cons]
      by_cases hwx : w.x = x
      · rw [if_pos hwx]
        by_cases hyx : y = x
        · subst hyx
          rw [List.find?_cons_of_pos _ (by simp [hvx]),
              List.find?_cons_of_pos _ (by simp [hwx]), if_pos rfl]
          simp
        · have hvy : ¬ v.x = y := by rw [hvx]; exact fun h => hyx h.symm
          have hwy : ¬ w.x = y := by rw [hwx]; exact fun h => hyx h.symm
          rw [List.find?_cons_of_neg _ (by simp [hvy]), ih, if_neg hyx, if_neg hyx,
              List.find?_cons_of_neg _ (by simp [hwy])]
      · rw [if_neg hwx]
        by_cases hwy : w.x = y
        · have hyx : ¬ y = x := fun h => hwx (h ▸ hwy)
          rw [List.find?_cons_of_pos _ (by simp [hwy]), if_neg hyx,
              List.find?_cons_of_pos _ (by simp [hwy])]
        · by_cases hyx : y = x
          · rw [List.find?_cons_of_neg _ (by simp [hwy]), ih, if_pos hyx, if_pos hyx,
                List.find?_cons_of_neg _ (by simp [hwx])]
          · rw [List.find?_cons_of_neg _ (by simp [hwy]), ih, if_neg hyx, if_neg hyx,
                List.find?_cons_of_neg _ (by simp [hwy])]

theorem findVertex_setV (s : VC) (x y : Key) (v : Vertex) (hvx : v.x = x) :
    findVertex (setV s x v) y =
      if y = x then (findVertex s x).map (fun _ => v) else findVertex s y := by
  unfold findVertex setV
  exact find?_map_ite s.cache x y v hvx

theorem setV_err (s : VC) (x : Key) (v : Vertex) : (setV s x v).err = s.err := rfl

theorem minimiser_explicit (s : VC) (k : Key) (v : Vertex)
    (hs : s.err = none) (hv : findVertex s k = some v) :
    minimiser s k =
      if v.check_min then
        (setV s k { v with min := v.nn.all (fun w => decide (v.f ≤ fOf s w)), check_min := false },
         v.nn.all (fun w => decide (v.f ≤ fOf s w)))
      else (s, v.min) := by
  simp [minimiser, hs, hv]

theorem connect_spec (s : VC) (a b : Key) (va vb : Vertex)
    (hs : s.err = none) (ha : findVertex s a = some va) (hb : findVertex s b = some vb)
    (hne : b ≠ a) (hban : b ∉ va.nn) (hanb : a ∉ vb.nn) :
    ∃ va2 vb2 : Vertex,
      findVertex (connect s a b) a = some va2 ∧
      findVertex (connect s a b) b = some vb2 ∧
      va2.nn = va.nn ++ [b] ∧ vb2.nn = vb.nn ++ [a] ∧
      va2.check_min = false ∧ va2.f = va.f ∧ vb2.f = vb.f ∧
      (va2.min = true → vb2.min = false ∧ vb2.check_min = false) ∧
      (va2.min = false → vb2.min = vb.min ∧ vb2.check_min = vb.check_min) ∧
      (∀ y, y ≠ a → y ≠ b → findVertex (connect s a b) y = findVertex s y) ∧
      (connect s a b).err = none := by
  have hax : va.x = a := findVertex_key ha
  have hbx : vb.x = b := findVertex_key hb
  have hab : a ≠ b := fun h => hne h.symm
  -- the state after the two symmetric nn insertions
  set va1 : Vertex := { va with nn := va.nn ++ [b] } with hva1
  set vb1 : Vertex := { vb with nn := vb.nn ++ [a] } with hvb1
  have hva1x : va1.x = a := hax
  have hvb1x : vb1.x = b := hbx
  have hs1b : findVertex (setV s a va1) b = some vb := by
    rw [findVertex_setV s a b va1 hva1x, if_neg hne, hb]
  have hs1a : findVertex (setV s a va1) a = some va1 := by
    rw [findVertex_setV s a a va1 hva1x, if_pos rfl, ha]; rfl
  set s2 : VC := setV (setV s a va1) b vb1 with hs2
  have hs2a : findVertex s2 a = some va1 := by
    rw [hs2, findVertex_setV _ b a vb1 hvb1x, if_neg hab, hs1a]
  have hs2b : findVertex s2 b = some vb1 := by
    rw [hs2, findVertex_setV _ b b vb1 hvb1x, if_pos rfl, hs1b]; rfl
  have hs2err : s2.err = none := by rw [hs2, setV_err, setV_err, hs]
  have hs2y : ∀ y, y ≠ a → y ≠ b → findVertex s2 y = findVertex s y := by
    intro y hya hyb
    rw [hs2, findVertex_setV _ b y vb1 hvb1x, if_neg hyb,
        findVertex_setV s a y va1 hva1x, if_neg hya]
  -- reduce `connect` to its main branch
  have hcr : connect s a b =
      (if (minimiser s2 a).2 then
         match findVertex (minimiser s2 a).1 b with
         | some vb3 => setV (minimiser s2 a).1 b { vb3 with min := false, check_min := false }
         | none => (minimiser s2 a).1
       else (minimiser s2 a).1) := by
    unfold connect
    rw [hs]
    simp only [Option.isSome_none, Bool.false_eq_true, if_false, ha, hb]
    rw [if_pos ⟨hne, hban⟩]
    simp only [← hva1, if_neg hanb, hs1b, ← hvb1, ← hs2]
  rw [hcr]
  have hmin := minimiser_explicit s2 a va1 hs2err hs2a
  by_cases hcm : va1.check_min = true
  · rw [hmin, if_pos hcm]
    dsimp only
    set m := va1.nn.all (fun w => decide (va1.f ≤ fOf s2 w)) with hm
    set va3 : Vertex := { va1 with min := m, check_min := false } with hva3
    have hva3x : va3.x = a := hva1x
    have h3a : findVertex (setV s2 a va3) a = some va3 := by
      rw [findVertex_setV s2 a a va3 hva3x, if_pos rfl, hs2a]; rfl
    have h3b : findVertex (setV s2 a va3) b = some vb1 := by
      rw [findVertex_setV s2 a b va3 hva3x, if_neg hne, hs2b]
    have h3y : ∀ y, y ≠ a → y ≠ b → findVertex (setV s2 a va3) y = findVertex s y := by
      intro y hya hyb
      rw [findVertex_setV s2 a y va3 hva3x, if_neg hya, hs2y y hya hyb]
    have h3err : (setV s2 a va3).err = none := by rw [setV_err, hs2err]
    by_cases hmb : m = true
    · rw [if_pos hmb, h3b]
      set vb3 : Vertex := { vb1 with min := false, check_min := false } with hvb3
      have hvb3x : vb3.x = b := hvb1x
      refine ⟨va3, vb3, ?_, ?_, rfl, rfl, rfl, rfl, rfl, fun _ => ⟨rfl, rfl⟩, fun h => ?_, ?_, ?_⟩
      · rw [findVertex_setV _ b a vb3 hvb3x, if_neg hab, h3a]
      · rw [findVertex_setV _ b b vb3 hvb3x, if_pos rfl, h3b]; rfl
      · rw [show va3.min = m from rfl, hmb] at h
        exact Bool.noConfusion h
      · intro y hya hyb
        rw [findVertex_setV _ b y vb3 hvb3x, if_neg hyb, h3y y hya hyb]
      · rw [setV_err, h3err]
    · rw [if_neg hmb]
      have hmf : m = false := by
        cases hmm : m with
        | true => exact absurd hmm hmb
        | false => rfl
      refine ⟨va3, vb1, h3a, h3b, rfl, rfl, rfl, rfl, rfl, fun h => ?_, fun _ => ⟨rfl, rfl⟩, h3y, h3err⟩
      rw [show va3.min = m from rfl, hmf] at h
      exact Bool.noConfusion h
  · rw [hmin, if_neg hcm]
    dsimp only
    have hcmf : va1.check_min = false := by
      cases hc : va1.check_min with
      | true => exact absurd hc hcm
      | false => rfl
    by_cases hml : va1.min = true
    · rw [if_pos hml, hs2b]
      set vb3 : Vertex := { vb1 with min := false, check_min := false } with hvb3
      have hvb3x : vb3.x = b := hvb1x
      refine ⟨va1, vb3, ?_, ?_, rfl, rfl, hcmf, rfl, rfl, fun _ => ⟨rfl, rfl⟩, fun h => ?_, ?_, ?_⟩
      · rw [findVertex_setV _ b a vb3 hvb3x, if_neg hab, hs2a]
      · rw [findVertex_setV _ b b vb3 hvb3x, if_pos rfl, hs2b]; rfl
      · rw [hml] at h
        exact Bool.noConfusion h
      · intro y hya hyb
        rw [findVertex_setV _ b y vb3 hvb3x, if_neg hyb, hs2y y hya hyb]
      · rw [setV_err, hs2err]
    · rw [if_neg hml]
      have hmlf : va1.min = false := by
        cases hc : va1.min with
        | true => exact absurd hc hml
        | false => rfl
      refine ⟨va1, vb1, hs2a, hs2b, rfl, rfl, hcmf, rfl, rfl, fun h => ?_, fun _ => ⟨rfl, rfl⟩, hs2y, hs2err⟩
      rw [hmlf] at h
      exact Bool.noConfusion h

theorem disconnect_spec (s : VC) (a b : Key) (va vb : Vertex)
    (hs : s.err = none) (ha : findVertex s a = some va) (hb : findVertex s b = some vb)
    (hne : b ≠ a) (hmem : b ∈ va.nn) (hmem2 : a ∈ vb.nn) :
    ∃ va2 vb2 : Vertex,
      findVertex (disconnect s a b) a = some va2 ∧
      findVertex (disconnect s a b) b = some vb2 ∧
      va2.nn = va.nn.erase b ∧ vb2.nn = vb.nn.erase a ∧
      va2.check_min = true ∧ va2.min = va.min ∧
      vb2.check_min = vb.check_min ∧ vb2.min = vb.min ∧
      (∀ y, y ≠ a → y ≠ b → findVertex (disconnect s a b) y = findVertex s y) ∧
      (disconnect s a b).err = none := by
  have hax : va.x = a := findVertex_key ha
  have hbx : vb.x = b := findVertex_key hb
  have hab : a ≠ b := fun h => hne h.symm
  set va1 : Vertex := { va with nn := va.nn.erase b } with hva1
  set vb1 : Vertex := { vb with nn := vb.nn.erase a } with hvb1
  have hva1x : va1.x = a := hax
  have hvb1x : vb1.x = b := hbx
  have hs1b : findVertex (setV s a va1) b = some vb := by
    rw [findVertex_setV s a b va1 hva1x, if_neg hne, hb]
  have hs1a : findVertex (setV s a va1) a = some va1 := by
    rw [findVertex_setV s a a va1 hva1x, if_pos rfl, ha]; rfl
  set s2 : VC := setV (setV s a va1) b vb1 with hs2d
  have hs2a : findVertex s2 a = some va1 := by
    rw [hs2d, findVertex_setV _ b a vb1 hvb1x, if_neg hab, hs1a]
  have hs2b : findVertex s2 b = some vb1 := by
    rw [hs2d, findVertex_setV _ b b vb1 hvb1x, if_pos rfl, hs1b]; rfl
  have hs2err : s2.err = none := by rw [hs2d, setV_err, setV_err, hs]
  have hs2y : ∀ y, y ≠ a → y ≠ b → findVertex s2 y = findVertex s y := by
    intro y hya hyb
    rw [hs2d, findVertex_setV _ b y vb1 hvb1x, if_neg hyb,
        findVertex_setV s a y va1 hva1x, if_neg hya]
  have hdr : disconnect s a b = setV s2 a { va1 with check_min := true } := by
    unfold disconnect
    rw [hs]
    simp only [Option.isSome_none, Bool.false_eq_true, if_false, ha]
    rw [if_pos hmem]
    simp only [← hva1, hs1b, if_pos hmem2, ← hvb1, ← hs2d, hs2err, hs2a]
  rw [hdr]
  set va4 : Vertex := { va1 with check_min := true } with hva4
  have hva4x : va4.x = a := hva1x
  refine ⟨va4, vb1, ?_, ?_, rfl, rfl, rfl, rfl, rfl, rfl, ?_, ?_⟩
  · rw [findVertex_setV s2 a a va4 hva4x, if_pos rfl, hs2a]; rfl
  · rw [findVertex_setV s2 a b va4 hva4x, if_neg hne, hs2b]
  · intro y hya hyb
    rw [findVertex_setV s2 a y va4 hva4x, if_neg hya, hs2y y hya hyb]
  · rw [setV_err, hs2err]

theorem nnOf_eq {s : VC} {k : Key} {v : Vertex} (h : findVertex s k = some v) :
    nnOf s k = v.nn := by unfold nnOf; rw [h]

theorem minOf_eq {s : VC} {k : Key} {v : Vertex} (h : findVertex s k = some v) :
    minOf s k = v.min := by unfold minOf; rw [h]

theorem checkMinOf_eq {s : VC} {k : Key} {v : Vertex} (h : findVertex s k = some v) :
    checkMinOf s k = v.check_min := by unfold checkMinOf; rw [h]

theorem connect_noop_of_adjacent {S : VC} {a b : Key} {va2 vb2 : Vertex}
    (hs : S.err = none) (hfa : findVertex S a = some va2) (hfb : findVertex S b = some vb2)
    (hmem : b ∈ va2.nn) : connect S a b = S := by
  unfold connect
  rw [hs]
  simp only [Option.isSome_none, Bool.false_eq_true, if_false, hfa, hfb]
  rw [if_neg (fun hcon => hcon.2 hmem)]

theorem connect_noop_self {S : VC} {a : Key} {va : Vertex}
    (hfa : findVertex S a = some va) : connect S a a = S := by
  unfold connect
  by_cases hs : S.err.isSome
  · rw [if_pos hs]
  · simp only [hs, Bool.false_eq_true, if_false, hfa]
    rw [if_neg (fun hcon => hcon.1 rfl)]

theorem c8_connect_disconnect_neighbour_sets (s : VC) (a b : Key) (va vb : Vertex)
    (hs : s.err = none) (ha : findVertex s a = some va) (hb : findVertex s b = some vb)
    (hne : b ≠ a) (hban : b ∉ va.nn) (hanb : a ∉ vb.nn) :
    (b ∈ nnOf (connect s a b) a ∧ a ∈ nnOf (connect s a b) b) ∧
    connect s a a = s ∧
    connect (connect s a b) a b = connect s a b ∧
    nnOf (disconnect (connect s a b) a b) a = nnOf s a ∧
    nnOf (disconnect (connect s a b) a b) b = nnOf s b := by
  obtain ⟨va2, vb2, hfa, hfb, hann, hbnn, hacm, haf, hbf, hi1, hi2, hy, herr⟩ :=
    connect_spec s a b va vb hs ha hb hne hban hanb
  have hmem : b ∈ va2.nn := by rw [hann]; exact List.mem_append_right _ (List.mem_singleton.2 rfl)
  have hmem2 : a ∈ vb2.nn := by rw [hbnn]; exact List.mem_append_right _ (List.mem_singleton.2 rfl)
  obtain ⟨va3, vb3, hfa3, hfb3, hann3, hbnn3, _, _, _, _, hy3, herr3⟩ :=
    disconnect_spec (connect s a b) a b va2 vb2 herr hfa hfb hne hmem hmem2
  refine ⟨⟨?_, ?_⟩, ?_, ?_, ?_, ?_⟩
  · rw [nnOf_eq hfa]; exact hmem
  · rw [nnOf_eq hfb]; exact hmem2
  · exact connect_noop_self ha
  · exact connect_noop_of_adjacent herr hfa hfb hmem
  · rw [nnOf_eq hfa3, hann3, hann, nnOf_eq ha,
        List.erase_append_right _ hban, List.erase_cons_head, List.append_nil]
  · rw [nnOf_eq hfb3, hbnn3, hbnn, nnOf_eq hb,
        List.erase_append_right _ hanb, List.erase_cons_head, List.append_nil]

theorem c4_amended_connect_disconnect_flags (s : VC) (a b : Key) (va vb : Vertex)
    (hs : s.err = none) (ha : findVertex s a = some va) (hb : findVertex s b = some vb)
    (hne : b ≠ a) (hban : b ∉ va.nn) (hanb : a ∉ vb.nn) :
    checkMinOf (connect s a b) a = false ∧
    (minOf (connect s a b) a = true →
      checkMinOf (connect s a b) b = false ∧ minOf (connect s a b) b = false) ∧
    (minOf (connect s a b) a = false →
      checkMinOf (connect s a b) b = vb.check_min ∧ minOf (connect s a b) b = vb.min) ∧
    checkMinOf (disconnect (connect s a b) a b) a = true ∧
    checkMinOf (disconnect (connect s a b) a b) b = checkMinOf (connect s a b) b := by
  obtain ⟨va2, vb2, hfa, hfb, hann, hbnn, hacm, haf, hbf, hi1, hi2, hy, herr⟩ :=
    connect_spec s a b va vb hs ha hb hne hban hanb
  have hmem : b ∈ va2.nn := by rw [hann]; exact List.mem_append_right _ (List.mem_singleton.2 rfl)
  have hmem2 : a ∈ vb2.nn := by rw [hbnn]; exact List.mem_append_right _ (List.mem_singleton.2 rfl)
  obtain ⟨va3, vb3, hfa3, hfb3, hann3, hbnn3, hacm3, hamin3, hbcm3, hbmin3, hy3, herr3⟩ :=
    disconnect_spec (connect s a b) a b va2 vb2 herr hfa hfb hne hmem hmem2
  refine ⟨?_, ?_, ?_, ?_, ?_⟩
  · rw [checkMinOf_eq hfa, hacm]
  · intro hm
    rw [minOf_eq hfa] at hm
    obtain ⟨h1, h2⟩ := hi1 hm
    rw [checkMinOf_eq hfb, minOf_eq hfb, h1, h2]
    exact ⟨rfl, rfl⟩
  · intro hm
    rw [minOf_eq hfa] at hm
    obtain ⟨h1, h2⟩ := hi2 hm
    rw [checkMinOf_eq hfb, minOf_eq hfb, h1, h2]
    exact ⟨rfl, rfl⟩
  · rw [checkMinOf_eq hfa3, hacm3]
  · rw [checkMinOf_eq hfb3, hbcm3, checkMinOf_eq hfb]

/-- Claim C8: after a successful `connect(a,b)` each endpoint is in the
other's neighbour set; `connect` is a no-op on the same vertex or an
already adjacent pair; and `disconnect` after an inserting `connect`
restores both neighbour sets exactly. -/
theorem c8_neighbour_sets (s : VC) (a b : Key) (va vb : Vertex)
    (hs : s.err = none) (ha : findVertex s a = some va) (hb : findVertex s b = some vb)
    (hne : b ≠ a) (hban : b ∉ va.nn) (hanb : a ∉ vb.nn) :
    (b ∈ nnOf (connect s a b) a ∧ a ∈ nnOf (connect s a b) b) ∧
    connect s a a = s ∧
    connect (connect s a b) a b = connect s a b ∧
    nnOf (disconnect (connect s a b) a b) a = nnOf s a ∧
    nnOf (disconnect (connect s a b) a b) b = nnOf s b :=
  c8_connect_disconnect_neighbour_sets s a b va vb hs ha hb hne hban hanb

/-- Witness for C8 at the concrete two-vertex state `sAB`. -/
theorem c8_neighbour_sets_witness :
    (([1] : Key) ∈ nnOf (connect sAB [0] [1]) [0] ∧
     ([0] : Key) ∈ nnOf (connect sAB [0] [1]) [1]) ∧
    connect sAB [0] [0] = sAB ∧
    connect (connect sAB [0] [1]) [0] [1] = connect sAB [0] [1] ∧
    nnOf (disconnect (connect sAB [0] [1]) [0] [1]) [0] = nnOf sAB [0] ∧
    nnOf (disconnect (connect sAB [0] [1]) [0] [1]) [1] = nnOf sAB [1] :=
  c8_neighbour_sets sAB [0] [1] vA vB (by decide) (by rfl) (by rfl)
    (by decide) (by decide) (by decide)

/-- Claim C4 amended: a successful `connect(a,b)` leaves `a`'s dirty bit
clear (its flag is recomputed eagerly during the call); it clears `b`'s
dirty bit and sets `b`'s cached flag to `false` exactly when `a`'s
resulting flag is true, and otherwise leaves `b`'s cached flag and dirty
bit unchanged.  A successful `disconnect(a,b)` marks only the receiver
`a` dirty and leaves `b`'s dirty bit as it was. -/
theorem c4_amended_dirty_bits (s : VC) (a b : Key) (va vb : Vertex)
    (hs : s.err = none) (ha : findVertex s a = some va) (hb : findVertex s b = some vb)
    (hne : b ≠ a) (hban : b ∉ va.nn) (hanb : a ∉ vb.nn) :
    checkMinOf (connect s a b) a = false ∧
    (minOf (connect s a b) a = true →
      checkMinOf (connect s a b) b = false ∧ minOf (connect s a b) b = false) ∧
    (minOf (connect s a b) a = false →
      checkMinOf (connect s a b) b = vb.check_min ∧ minOf (connect s a b) b = vb.min) ∧
    checkMinOf (disconnect (connect s a b) a b) a = true ∧
    checkMinOf (disconnect (connect s a b) a b) b = checkMinOf (connect s a b) b :=
  c4_amended_connect_disconnect_flags s a b va vb hs ha hb hne hban hanb

/-- Witness for the amended C4 theorem at the concrete state `sAB`. -/
theorem c4_amended_dirty_bits_witness :
    checkMinOf (connect sAB [0] [1]) [0] = false ∧
    (minOf (connect sAB [0] [1]) [0] = true →
      checkMinOf (connect sAB [0] [1]) [1] = false ∧ minOf (connect sAB [0] [1]) [1] = false) ∧
    (minOf (connect sAB [0] [1]) [0] = false →
      checkMinOf (connect sAB [0] [1]) [1] = vB.check_min ∧
      minOf (connect sAB [0] [1]) [1] = vB.min) ∧
    checkMinOf (disconnect (connect sAB [0] [1]) [0] [1]) [0] = true ∧
    checkMinOf (disconnect (connect sAB [0] [1]) [0] [1]) [1] =
      checkMinOf (connect sAB [0] [1]) [1] :=
  c4_amended_dirty_bits sAB [0] [1] vA vB (by decide) (by rfl) (by rfl)
    (by decide) (by decide) (by decide)

theorem foldl_preserve {α β : Type _} (f : β → α → β) (P : β → Prop)
    (h : ∀ b a, P b → P (f b a)) : ∀ (l : List α) (b : β), P b → P (l.foldl f b) := by
  intro l
  induction l with
  | nil => intro b hb; exact hb
  | cons a t ih => intro b hb; exact ih (f b a) (h b a hb)

theorem connectLoop_gen_H (c : Cmplx) (V_new : List Key) :
    (connectLoop c V_new).gen = c.gen ∧ (connectLoop c V_new).H = c.H := by
  unfold connectLoop
  refine foldl_preserve _ (fun x => x.gen = c.gen ∧ x.H = c.H) ?_ _ c ⟨rfl, rfl⟩
  intro b p hb
  refine foldl_preserve _ (fun x => x.gen = c.gen ∧ x.H = c.H) ?_ _ b hb
  intro b2 j hb2
  by_cases he : b2.V.err.isSome
  · rw [if_pos he]; exact hb2
  · rw [if_neg he]
    cases h1 : V_new.get? p.1 <;> cases h2 : pyGet? V_new j <;> simp only [h1, h2] <;> exact hb2

theorem chStep_gen_H (origin suprenum : Key) (acc : Cmplx × Cell × List Key) (vk : Key) :
    (chStep origin suprenum acc vk).1.gen = acc.1.gen ∧
    (chStep origin suprenum acc vk).1.H = acc.1.H := by
  unfold chStep
  by_cases he : (lookup acc.1.V (List.zipWith (fun a b => a + b)
      (List.zipWith (fun o u => o - o * u) origin vk)
      (List.zipWith (fun sp u => sp * u) suprenum vk))).err.isSome
  · rw [if_pos he]; exact ⟨rfl, rfl⟩
  · rw [if_neg he]; exact ⟨rfl, rfl⟩

theorem chCentroid_gen_H (ctr : Key) (r1 : Cmplx × Cell × List Key) :
    (chCentroid ctr r1).1.gen = r1.1.gen ∧ (chCentroid ctr r1).1.H = r1.1.H := by
  unfold chCentroid
  by_cases he : (lookup r1.1.V ctr).err.isSome
  · rw [if_pos he]; exact ⟨rfl, rfl⟩
  · rw [if_neg he]; exact ⟨rfl, rfl⟩

theorem chFinish_gen_H (g : Nat) (r2 : Cmplx × Cell × List Key) (j : Nat) (hj : j ≠ g) :
    (chFinish g r2).gen = r2.1.gen ∧
    (chFinish g r2).H.get? j = r2.1.H.get? j ∧
    r2.1.H.length ≤ (chFinish g r2).H.length := by
  unfold chFinish
  obtain ⟨hcg, hcH⟩ := connectLoop_gen_H r2.1 r2.2.2
  by_cases hc3 : (connectLoop r2.1 r2.2.2).V.err.isSome
  · rw [if_pos hc3]
    exact ⟨hcg, by rw [hcH], le_of_eq (by rw [hcH])⟩
  · rw [if_neg hc3]
    by_cases hlen : g < (connectLoop r2.1 r2.2.2).H.length
    · rw [dif_pos hlen]
      refine ⟨hcg, ?_, ?_⟩
      · show (List.set _ g _).get? j = _
        rw [List.get?_set_ne _ _ (fun h => hj h.symm), hcH]
      · show r2.1.H.length ≤ (List.set _ g _).length
        rw [List.length_set, hcH]
    · rw [dif_neg hlen]
      exact ⟨hcg, by rw [hcH], le_of_eq (by rw [hcH])⟩

theorem constructHypercube_gen_H (c : Cmplx) (o sp : Key) (g : Nat)
    (hgr p_hgr_h : Option Int) (j : Nat) (hj : j ≠ g) :
    (constructHypercube c o sp g hgr p_hgr_h).gen = c.gen ∧
    (constructHypercube c o sp g hgr p_hgr_h).H.get? j = c.H.get? j ∧
    c.H.length ≤ (constructHypercube c o sp g hgr p_hgr_h).H.length := by
  unfold constructHypercube
  by_cases he : c.V.err.isSome
  · rw [if_pos he]; exact ⟨rfl, rfl, le_refl _⟩
  · rw [if_neg he]
    obtain ⟨h1, h2⟩ := foldl_preserve (chStep o sp)
      (fun acc => acc.1.gen = c.gen ∧ acc.1.H = c.H)
      (fun b a hb => by
        have := chStep_gen_H o sp b a
        exact ⟨this.1.trans hb.1, this.2.trans hb.2⟩)
      c.C0.C.dropLast
      (c, chNewCell g hgr p_hgr_h o sp, [])
      ⟨rfl, rfl⟩
    obtain ⟨h3, h4⟩ := chCentroid_gen_H (chCtr o sp)
      ((c.C0.C.dropLast).foldl (chStep o sp) (c, chNewCell g hgr p_hgr_h o sp, []))
    obtain ⟨h5, h6, h7⟩ := chFinish_gen_H g
      (chCentroid (chCtr o sp)
        ((c.C0.C.dropLast).foldl (chStep o sp) (c, chNewCell g hgr p_hgr_h o sp, []))) j hj
    refine ⟨h5.trans (h3.trans h1), h6.trans (by rw [h4, h2]), ?_⟩
    calc c.H.length = _ := by rw [← h2, ← h4]
      _ ≤ _ := h7

theorem dcStep_gen_H (C_i : Cell) (c0 : Cmplx) (p : Nat × List Int) :
    (dcStep C_i c0 p).gen = c0.gen ∧ (dcStep C_i c0 p).H = c0.H := by
  unfold dcStep
  refine foldl_preserve _ (fun x => x.gen = c0.gen ∧ x.H = c0.H) ?_ _ c0 ⟨rfl, rfl⟩
  intro b j hb
  by_cases he : b.V.err.isSome
  · rw [if_pos he]; exact hb
  · rw [if_neg he]
    cases h1 : C_i.C.get? p.1 <;> cases h2 : pyGet? C_i.C j <;> simp only [h1, h2] <;> exact hb

theorem subGenerateCell_gen_H (c : Cmplx) (C_i : Cell) (g j : Nat)
    (hj : j ≠ g) (hjlt : j < c.H.length) :
    (subGenerateCell c C_i g).gen = c.gen ∧
    (subGenerateCell c C_i g).H.get? j = c.H.get? j ∧
    c.H.length ≤ (subGenerateCell c C_i g).H.length := by
  unfold subGenerateCell
  by_cases he : c.V.err.isSome
  · rw [if_pos he]; exact ⟨rfl, rfl, le_refl _⟩
  · rw [if_neg he]
    cases hc : C_i.centroid with
    | none => exact ⟨rfl, rfl, le_refl _⟩
    | some o =>
      have hP1 : (if g < c.H.length then c else { c with H := c.H ++ [[]] }).gen = c.gen ∧
          (if g < c.H.length then c else { c with H := c.H ++ [[]] }).H.get? j = c.H.get? j ∧
          c.H.length ≤ (if g < c.H.length then c else { c with H := c.H ++ [[]] }).H.length := by
        by_cases hg1 : g < c.H.length
        · rw [if_pos hg1]; exact ⟨rfl, rfl, le_refl _⟩
        · rw [if_neg hg1]
          refine ⟨rfl, ?_, ?_⟩
          · show (c.H ++ [[]]).get? j = c.H.get? j
            exact List.get?_append hjlt
          · show c.H.length ≤ (c.H ++ [[]]).length
            simp
      have hP2 := foldl_preserve
        (fun acc vk => constructHypercube acc o vk g C_i.hg_n C_i.p_hgr_h)
        (fun x => x.gen = c.gen ∧ x.H.get? j = c.H.get? j ∧ c.H.length ≤ x.H.length)
        (fun b a hb => by
          obtain ⟨q1, q2, q3⟩ := constructHypercube_gen_H b o a g C_i.hg_n C_i.p_hgr_h j hj
          exact ⟨q1.trans hb.1, q2.trans hb.2.1, le_trans hb.2.2 q3⟩)
        C_i.C.dropLast
        (if g < c.H.length then c else { c with H := c.H ++ [[]] })
        hP1
      exact foldl_preserve (dcStep C_i)
        (fun x => x.gen = c.gen ∧ x.H.get? j = c.H.get? j ∧ c.H.length ≤ x.H.length)
        (fun b p hb => by
          obtain ⟨q1, q2⟩ := dcStep_gen_H C_i b p
          exact ⟨q1.trans hb.1, (by rw [q2]; exact hb.2.1), (by rw [q2]; exact hb.2.2)⟩)
        _ _ hP2

theorem c6_amended_err_preserves_prior_generation (c : Cmplx) (h0 : c.V.err = none)
    (h1 : (splitGeneration c).V.err ≠ none) :
    (splitGeneration c).gen = c.gen ∧
    (splitGeneration c).H.get? c.gen = c.H.get? c.gen := by
  unfold splitGeneration at h1 ⊢
  rw [h0] at h1 ⊢
  simp only [Option.isSome_none, Bool.false_eq_true, if_false] at h1 ⊢
  cases hH : c.H.get? c.gen with
  | none =>
      simp only [hH] at h1 ⊢
      rw [h0] at h1 ⊢
      simp only [Option.isSome_none, Bool.false_eq_true, if_false] at h1 ⊢
      by_cases hie : (none : Option PyErr) = some PyErr.indexError
      · exact absurd hie (by simp)
      · rw [if_neg hie] at h1
        exact absurd h0 h1
  | some cells =>
      simp only [hH] at h1 ⊢
      have hfold := foldl_preserve (fun acc cell => subGenerateCell acc cell (c.gen + 1))
        (fun x => x.gen = c.gen ∧ x.H.get? c.gen = some cells ∧ c.H.length ≤ x.H.length)
        (fun b cell hb => by
          have hlt : c.gen < b.H.length := by
            obtain ⟨hlt2, -⟩ := List.get?_eq_some.1 hb.2.1
            exact hlt2
          obtain ⟨q1, q2, q3⟩ := subGenerateCell_gen_H b cell (c.gen + 1) c.gen
            (Nat.ne_of_lt (Nat.lt_succ_self _)) hlt
          exact ⟨q1.trans hb.1, q2.trans hb.2.1, le_trans hb.2.2 q3⟩)
        cells c ⟨rfl, hH, le_refl _⟩
      set c1 := cells.foldl (fun acc cell => subGenerateCell acc cell (c.gen + 1)) c with hc1
      by_cases hie : c1.V.err = some PyErr.indexError
      · rw [if_pos hie] at h1
        exact absurd rfl h1
      · rw [if_neg hie] at h1 ⊢
        by_cases hse : c1.V.err.isSome
        · rw [if_pos hse] at h1 ⊢
          exact ⟨hfold.1, hfold.2.1⟩
        · rw [if_neg hse] at h1
          exact absurd (Option.not_isSome_iff_eq_none.1 hse) h1

/-- Claim C6 amended: when an objective evaluation raises during
`split_generation`, the exception propagates before the generation
counter is advanced and the current generation's stored cell list is
unchanged (child cells already constructed remain in the next
generation's list — see the counterexample). -/
theorem c6_amended_failure_keeps_prior_generation (c : Cmplx) (h0 : c.V.err = none)
    (h1 : (splitGeneration c).V.err ≠ none) :
    (splitGeneration c).gen = c.gen ∧
    (splitGeneration c).H.get? c.gen = c.H.get? c.gen :=
  c6_amended_err_preserves_prior_generation c h0 h1

/-- Witness for the amended C6 theorem at the failing concrete split. -/
theorem c6_amended_failure_keeps_prior_generation_witness :
    (splitGeneration c6c).gen = c6c.gen ∧
    (splitGeneration c6c).H.get? c6c.gen = c6c.H.get? c6c.gen :=
  c6_amended_failure_keeps_prior_generation c6c (by decide) (by decide)

theorem findVertex_isSome_iff (s : VC) (x : Key) :
    (findVertex s x).isSome = true ↔ x ∈ keysOf s := by
  unfold findVertex keysOf
  rw [List.find?_isSome]
  constructor
  · rintro ⟨v, hv, hvx⟩
    exact List.mem_map.2 ⟨v, hv, by simpa using hvx⟩
  · rintro h
    obtain ⟨v, hv, hvx⟩ := List.mem_map.1 h
    exact ⟨v, hv, by simpa using hvx⟩

theorem lookupV_hit (s : VC) (x : Key) (hs : s.err = none) (hx : x ∈ keysOf s) :
    lookupV s x = (s, findVertex s x) := by
  obtain ⟨v, hv⟩ := Option.isSome_iff_exists.1 ((findVertex_isSome_iff s x).2 hx)
  simp [lookupV, hs, hv]

theorem okF_apply (f : Key → ℚ) (y : Key) : okF f y = Except.ok (f y) := rfl

theorem lookup_CacheLog (f : Key → ℚ) (s : VC) (x : Key) (h : CacheLog f s) :
    CacheLog f (lookup s x) ∧ x ∈ keysOf (lookup s x) ∧
    ∀ y ∈ keysOf s, y ∈ keysOf (lookup s x) := by
  obtain ⟨hf, hs, he, hn⟩ := h
  by_cases hx : x ∈ keysOf s
  · have := lookupV_hit s x hs hx
    unfold lookup
    rw [this]
    exact ⟨⟨hf, hs, he, hn⟩, hx, fun y hy => hy⟩
  · have hfv : findVertex s x = none := by
      cases hq : findVertex s x with
      | none => rfl
      | some v =>
          exact absurd ((findVertex_isSome_iff s x).1 (by rw [hq]; rfl)) hx
    have hkeys : ∀ (fn : Key → Except String ℚ) (bd : Option (List (ℚ × ℚ)))
        (i : Int) (e : List Key) (er : Option PyErr) (v : Vertex),
        keysOf { func := fn, bounds := bd, cache := s.cache ++ [v],
                 Index := i, evals := e, err := er } = keysOf s ++ [v.x] := by
      intro fn bd i e er v
      simp [keysOf]
    unfold lookup lookupV
    rw [hs]
    simp only [Option.isSome_none, Bool.false_eq_true, if_false, hfv, hf, okF_apply]
    refine ⟨⟨rfl, rfl, ?_, ?_⟩, ?_, ?_⟩
    · rw [hkeys]
      show s.evals ++ [x] = keysOf s ++ [x]
      rw [he]
    · rw [hkeys]
      refine List.Nodup.append hn (List.nodup_singleton x) ?_
      rw [List.disjoint_singleton]
      exact hx
    · rw [hkeys]
      exact List.mem_append_right _ (List.mem_singleton.2 rfl)
    · intro y hy
      rw [hkeys]
      exact List.mem_append_left _ hy

theorem count_key_eq_one {x : Key} {l : List Key} (hn : l.Nodup) (hx : x ∈ l) :
    l.count x = 1 := by
  have h := List.count_eq_one_of_mem hn hx
  calc l.count x = @List.count Key instBEqOfDecidableEq x l := by
        unfold List.count
        refine List.countP_congr ?_
        intro a _
        by_cases hax : a = x <;> simp [hax]
    _ = 1 := h

theorem runLookups_CacheLog (f : Key → ℚ) (ks : List Key) :
    ∀ s : VC, CacheLog f s →
      CacheLog f (runLookups s ks) ∧
      (∀ x ∈ ks, x ∈ keysOf (runLookups s ks)) ∧
      (∀ y ∈ keysOf s, y ∈ keysOf (runLookups s ks)) := by
  induction ks with
  | nil =>
      intro s h
      exact ⟨h, (by intro x hx; cases hx), fun y hy => hy⟩
  | cons k t ih =>
      intro s h
      obtain ⟨h1, h2, h3⟩ := lookup_CacheLog f s k h
      obtain ⟨h4, h5, h6⟩ := ih (lookup s k) h1
      refine ⟨h4, ?_, ?_⟩
      · intro x hx
        rcases List.mem_cons.1 hx with hk | ht
        · subst hk; exact h6 x h2
        · exact h5 x ht
      · intro y hy
        exact h6 y (h3 y hy)

/-- Claim C1: on a cache with a never-raising objective, after any
sequence of lookups containing `x`, the objective has been invoked
exactly once at `x` (the invocation log counts it once), and a further
lookup of `x` leaves the cache state unchanged and returns exactly the
stored vertex — identity is preserved across any number of lookups. -/
theorem c1_lookup_referentially_stable (f : Key → ℚ) (bounds : Option (List (ℚ × ℚ)))
    (ks : List Key) (x : Key) (hx : x ∈ ks) :
    (runLookups (emptyVC (okF f) bounds) ks).evals.count x = 1 ∧
    lookup (runLookups (emptyVC (okF f) bounds) ks) x = runLookups (emptyVC (okF f) bounds) ks ∧
    (lookupV (runLookups (emptyVC (okF f) bounds) ks) x).2 =
      findVertex (runLookups (emptyVC (okF f) bounds) ks) x ∧
    (findVertex (runLookups (emptyVC (okF f) bounds) ks) x).isSome = true := by
  have h0 : CacheLog f (emptyVC (okF f) bounds) := ⟨rfl, rfl, rfl, List.nodup_nil⟩
  obtain ⟨⟨hf, hs, he, hn⟩, hmem, -⟩ := runLookups_CacheLog f ks (emptyVC (okF f) bounds) h0
  have hxk := hmem x hx
  have hhit := lookupV_hit _ x hs hxk
  refine ⟨?_, ?_, ?_, ?_⟩
  · rw [he]; exact count_key_eq_one hn hxk
  · unfold lookup; rw [hhit]
  · rw [hhit]
  · exact (findVertex_isSome_iff _ x).2 hxk

/-- Witness for C1 at a singleton lookup sequence. -/
theorem c1_lookup_referentially_stable_witness :
    (runLookups (emptyVC (okF (fun _ => 0)) none) [[0]]).evals.count [0] = 1 ∧
    lookup (runLookups (emptyVC (okF (fun _ => 0)) none) [[0]]) [0] =
      runLookups (emptyVC (okF (fun _ => 0)) none) [[0]] ∧
    (lookupV (runLookups (emptyVC (okF (fun _ => 0)) none) [[0]]) [0]).2 =
      findVertex (runLookups (emptyVC (okF (fun _ => 0)) none) [[0]]) [0] ∧
    (findVertex (runLookups (emptyVC (okF (fun _ => 0)) none) [[0]]) [0]).isSome = true :=
  c1_lookup_referentially_stable (fun _ => 0) none [[0]] [0] (by decide)

theorem keysOf_setV (s : VC) (x : Key) (v : Vertex) (hvx : v.x = x) :
    keysOf (setV s x v) = keysOf s := by
  unfold keysOf setV
  simp only [List.map_map]
  refine List.map_congr_left ?_
  intro w _
  by_cases hw : w.x = x <;> simp [hw, hvx]

theorem err_setV (s : VC) (x : Key) (v : Vertex) : (setV s x v).err = s.err := rfl

theorem func_setV (s : VC) (x : Key) (v : Vertex) : (setV s x v).func = s.func := rfl

theorem keysOf_setV_found {s : VC} {x : Key} {v : Vertex} (hv : findVertex s x = some v)
    (v2 : Vertex) (h2 : v2.x = v.x) : keysOf (setV s x v2) = keysOf s :=
  keysOf_setV s x v2 (h2.trans (findVertex_key hv))


theorem minimiser_miss (s : VC) (k : Key) (hv : findVertex s k = none) :
    minimiser s k = (s, false) := by
  unfold minimiser
  rw [hv]
  split <;> rfl

theorem minimiser_keysOf_err (s : VC) (k : Key) :
    keysOf (minimiser s k).1 = keysOf s ∧ (minimiser s k).1.err = s.err ∧
    (minimiser s k).1.func = s.func := by
  by_cases he : s.err.isSome
  · unfold minimiser
    rw [if_pos he]
    exact ⟨rfl, rfl, rfl⟩
  · have hs : s.err = none := Option.not_isSome_iff_eq_none.1 he
    cases hv : findVertex s k with
    | none =>
        rw [minimiser_miss s k hv]
        exact ⟨rfl, rfl, rfl⟩
    | some v =>
        rw [minimiser_explicit s k v hs hv]
        by_cases hc : v.check_min = true
        · rw [if_pos hc]
          exact ⟨keysOf_setV_found hv _ rfl, rfl, rfl⟩
        · rw [if_neg hc]
          exact ⟨rfl, rfl, rfl⟩

theorem connect_keysOf_err (s : VC) (a b : Key) :
    keysOf (connect s a b) = keysOf s ∧ (connect s a b).err = s.err ∧
    (connect s a b).func = s.func := by
  unfold connect
  by_cases he : s.err.isSome
  · rw [if_pos he]; exact ⟨rfl, rfl, rfl⟩
  · rw [if_neg he]
    by_cases hsa : (findVertex s a).isSome
    · obtain ⟨va, ha⟩ := Option.isSome_iff_exists.1 hsa
      by_cases hsb : (findVertex s b).isSome
      · obtain ⟨vb, hb⟩ := Option.isSome_iff_exists.1 hsb
        simp only [ha, hb]
        by_cases hcond : b ≠ a ∧ b ∉ va.nn
        · rw [if_pos hcond]
          have hax : va.x = a := findVertex_key ha
          have hax1 : ({ va with nn := va.nn ++ [b] } : Vertex).x = a := hax
          have hk1 : keysOf (setV s a { va with nn := va.nn ++ [b] }) = keysOf s :=
            keysOf_setV _ _ _ hax1
          by_cases hsb1 : (findVertex (setV s a { va with nn := va.nn ++ [b] }) b).isSome
          · obtain ⟨vb1, hb1⟩ := Option.isSome_iff_exists.1 hsb1
            simp only [hb1]
            set vbrec : Vertex :=
              { vb1 with nn := if a ∈ vb1.nn then vb1.nn else vb1.nn ++ [a] } with hvbrec
            have hb1x : vbrec.x = b :=
              (show vbrec.x = vb1.x from rfl).trans (findVertex_key hb1)
            have hk2 : keysOf (setV (setV s a { va with nn := va.nn ++ [b] }) b vbrec) =
                keysOf (setV s a { va with nn := va.nn ++ [b] }) :=
              keysOf_setV _ _ _ hb1x
            set s2 := setV (setV s a { va with nn := va.nn ++ [b] }) b vbrec with hs2
            obtain ⟨hk3, he3, hf3⟩ := minimiser_keysOf_err s2 a
            by_cases hp : (minimiser s2 a).2
            · rw [if_pos hp]
              by_cases hsb3 : (findVertex (minimiser s2 a).1 b).isSome
              · obtain ⟨vb3, hb3⟩ := Option.isSome_iff_exists.1 hsb3
                simp only [hb3]
                set vb3rec : Vertex := { vb3 with min := false, check_min := false }
                  with hvb3rec
                have hb3x : vb3rec.x = b :=
                  (show vb3rec.x = vb3.x from rfl).trans (findVertex_key hb3)
                refine ⟨?_, ?_, ?_⟩
                · rw [keysOf_setV _ _ _ hb3x, hk3, hk2, hk1]
                · rw [err_setV, he3]; try rfl
                · rw [func_setV, hf3]; try rfl
              · have hb3 : findVertex (minimiser s2 a).1 b = none :=
                  Option.not_isSome_iff_eq_none.1 hsb3
                simp only [hb3]
                exact ⟨hk3.trans (hk2.trans hk1), he3, hf3⟩
            · rw [if_neg hp]
              exact ⟨hk3.trans (hk2.trans hk1), he3, hf3⟩
          · have hb1 : findVertex (setV s a { va with nn := va.nn ++ [b] }) b = none :=
              Option.not_isSome_iff_eq_none.1 hsb1
            simp only [hb1]
            set s2 := setV s a { va with nn := va.nn ++ [b] } with hs2
            obtain ⟨hk3, he3, hf3⟩ := minimiser_keysOf_err s2 a
            by_cases hp : (minimiser s2 a).2
            · rw [if_pos hp]
              by_cases hsb3 : (findVertex (minimiser s2 a).1 b).isSome
              · obtain ⟨vb3, hb3⟩ := Option.isSome_iff_exists.1 hsb3
                simp only [hb3]
                set vb3rec : Vertex := { vb3 with min := false, check_min := false }
                  with hvb3rec
                have hb3x : vb3rec.x = b :=
                  (show vb3rec.x = vb3.x from rfl).trans (findVertex_key hb3)
                refine ⟨?_, ?_, ?_⟩
                · rw [keysOf_setV _ _ _ hb3x, hk3, hk1]
                · rw [err_setV, he3]; try rfl
                · rw [func_setV, hf3]; try rfl
              · have hb3 : findVertex (minimiser s2 a).1 b = none :=
                  Option.not_isSome_iff_eq_none.1 hsb3
                simp only [hb3]
                exact ⟨hk3.trans hk1, he3, hf3⟩
            · rw [if_neg hp]
              exact ⟨hk3.trans hk1, he3, hf3⟩
        · rw [if_neg hcond]
          trivial
      · have hb : findVertex s b = none := Option.not_isSome_iff_eq_none.1 hsb
        simp only [ha, hb]
        trivial
    · have ha : findVertex s a = none := Option.not_isSome_iff_eq_none.1 hsa
      simp only [ha]
      cases findVertex s b <;> trivial

theorem perm_succ (dim fuel : Nat) (ip : List Nat) (xp : List Key) (xi : Key) (n : NState) :
    perm dim (fuel + 1) ip xp xi n =
      ((List.range dim).filter (fun x => decide (x ∉ ip))).foldl
        (permStep dim fuel ip xp xi) n := rfl

theorem find?_unique_key {l : List Vertex} {x : Key} {w : Vertex}
    (hnd : (l.map (fun v => v.x)).Nodup) (hw : w ∈ l) (hx : w.x = x) :
    l.find? (fun v => decide (v.x = x)) = some w := by
  induction l with
  | nil => cases hw
  | cons u t ih =>
      rw [List.map_cons, List.nodup_cons] at hnd
      rcases List.mem_cons.1 hw with hwu | hwt
      · subst hwu
        exact List.find?_cons_of_pos _ (by simp [hx])
      · have hux : ¬ u.x = x := by
          intro h
          exact hnd.1 (by rw [h, ← hx]; exact List.mem_map_of_mem _ hwt)
        rw [List.find?_cons_of_neg _ (by simp [hux])]
        exact ih hnd.2 hwt

theorem findVertex_unique {s : VC} {x : Key} {w : Vertex}
    (hnd : (keysOf s).Nodup) (hw : w ∈ s.cache) (hx : w.x = x) :
    findVertex s x = some w :=
  find?_unique_key hnd hw hx

theorem keysOf_eq_of_skel {s t : VC} (h : skel t = skel s) : keysOf t = keysOf s := by
  have h2 := congrArg (List.map Prod.fst) h
  simpa [skel, keysOf, List.map_map, Function.comp] using h2

theorem cache_length_of_skel {s t : VC} (h : skel t = skel s) :
    t.cache.length = s.cache.length := by
  have h2 := congrArg List.length h
  simpa [skel] using h2

theorem idx_of_skel {s t : VC} (h : skel t = skel s)
    (hidx : ∀ i : Fin s.cache.length, (s.cache.get i).I = (i : Nat)) :
    ∀ i : Fin t.cache.length, (t.cache.get i).I = (i : Nat) := by
  intro i
  have hlen := cache_length_of_skel h
  have hj : (i : Nat) < s.cache.length := hlen ▸ i.isLt
  have h2 := congrArg (fun l => l.get? (i : Nat)) h
  simp only [skel, List.get?_map, List.get?_eq_get i.isLt, List.get?_eq_get hj] at h2
  have h4 : (t.cache.get i).x = (s.cache.get ⟨i, hj⟩).x ∧
      (t.cache.get i).I = (s.cache.get ⟨i, hj⟩).I := by simpa using h2
  rw [h4.2]
  exact hidx ⟨i, hj⟩

theorem setV_skel {s : VC} {x : Key} {v0 : Vertex} (hnd : (keysOf s).Nodup)
    (hv : findVertex s x = some v0) (v : Vertex) (hvx : v.x = v0.x) (hvI : v.I = v0.I) :
    skel (setV s x v) = skel s := by
  unfold skel setV
  simp only [List.map_map]
  refine List.map_congr_left ?_
  intro w hw
  by_cases hwx : w.x = x
  · have hfw : findVertex s x = some w := findVertex_unique hnd hw hwx
    have hww : w = v0 := Option.some.inj (hfw.symm.trans hv)
    subst hww
    simp [Function.comp, hwx, hvx, hvI]
  · simp [Function.comp, hwx]

theorem setV_nnClosed {s : VC} {x : Key} {v : Vertex}
    (hkeys : keysOf (setV s x v) = keysOf s)
    (hvnn : ∀ w ∈ v.nn, w ∈ keysOf s) (h : nnClosed s) :
    nnClosed (setV s x v) := by
  intro u hu w hw
  rw [hkeys]
  have hu2 : u ∈ s.cache.map (fun w0 => if w0.x = x then v else w0) := hu
  obtain ⟨u0, hu0, hite⟩ := List.mem_map.1 hu2
  by_cases hux : u0.x = x
  · rw [if_pos hux] at hite
    exact hvnn w (by rw [hite]; exact hw)
  · rw [if_neg hux] at hite
    exact h u0 hu0 w (by rw [hite]; exact hw)

theorem VInv_of_skel {d : Nat} {f : Key → ℚ} {s t : VC} (h : VInv d f s)
    (hsk : skel t = skel s) (hI : t.Index = s.Index) (he : t.err = s.err)
    (hf : t.func = s.func) (hnn : nnClosed t) : VInv d f t := by
  have hkeys := keysOf_eq_of_skel hsk
  have hlen := cache_length_of_skel hsk
  exact
    { func_eq := hf.trans h.func_eq
      err_none := he.trans h.err_none
      idx := idx_of_skel hsk h.idx
      index_eq := by rw [hI, hlen]; exact h.index_eq
      nn_closed := hnn
      key_nodup := by rw [hkeys]; exact h.key_nodup
      binary := by rw [hkeys]; exact h.binary }

theorem lookup_hit {s : VC} {x : Key} (hs : s.err = none) (hx : x ∈ keysOf s) :
    lookup s x = s := by
  unfold lookup
  rw [lookupV_hit s x hs hx]

theorem lookup_miss_eq {s : VC} {x : Key} {f : Key → ℚ} (hs : s.err = none)
    (hf : s.func = okF f) (hx : x ∉ keysOf s) :
    lookup s x = { s with Index := s.Index + 1, evals := s.evals ++ [x], cache := s.cache ++ [{ x := x, order := x.sum, f := f (rescale s.bounds x), nn := [], min := false, check_min := true, I := s.Index + 1 }] } := by
  have hv : findVertex s x = none := by
    cases hfv : findVertex s x with
    | none => rfl
    | some v =>
        exact absurd ((findVertex_isSome_iff s x).1 (by rw [hfv]; rfl)) hx
  unfold lookup lookupV
  rw [hs, hv, hf]
  rfl

theorem lookup_okF {s : VC} {f : Key → ℚ} (hs : s.err = none) (hf : s.func = okF f)
    (x : Key) : (lookup s x).err = none ∧ (lookup s x).func = okF f := by
  by_cases hm : x ∈ keysOf s
  · rw [lookup_hit hs hm]; exact ⟨hs, hf⟩
  · rw [lookup_miss_eq hs hf hm]; exact ⟨hs, hf⟩

theorem minimiser_skel (s : VC) (k : Key) (hnd : (keysOf s).Nodup) :
    skel (minimiser s k).1 = skel s ∧ (minimiser s k).1.Index = s.Index ∧
    (nnClosed s → nnClosed (minimiser s k).1) := by
  by_cases he : s.err.isSome
  · unfold minimiser
    rw [if_pos he]
    exact ⟨rfl, rfl, fun h => h⟩
  · have hs : s.err = none := Option.not_isSome_iff_eq_none.1 he
    cases hv : findVertex s k with
    | none =>
        rw [minimiser_miss s k hv]
        exact ⟨rfl, rfl, fun h => h⟩
    | some v =>
        have hvc : v ∈ s.cache := List.mem_of_find?_eq_some hv
        rw [minimiser_explicit s k v hs hv]
        by_cases hc : v.check_min = true
        · rw [if_pos hc]
          refine ⟨setV_skel hnd hv _ rfl rfl, rfl, fun h => ?_⟩
          exact setV_nnClosed (keysOf_setV_found hv _ rfl) (fun w hw => h v hvc w hw) h
        · rw [if_neg hc]
          exact ⟨rfl, rfl, fun h => h⟩

theorem connect_skel (s : VC) (a b : Key) (hnd : (keysOf s).Nodup) :
    skel (connect s a b) = skel s ∧ (connect s a b).Index = s.Index ∧
    (nnClosed s → nnClosed (connect s a b)) := by
  unfold connect
  by_cases he : s.err.isSome
  · rw [if_pos he]; exact ⟨rfl, rfl, fun h => h⟩
  · rw [if_neg he]
    by_cases hsa : (findVertex s a).isSome
    · obtain ⟨va, ha⟩ := Option.isSome_iff_exists.1 hsa
      by_cases hsb : (findVertex s b).isSome
      · obtain ⟨vb, hb⟩ := Option.isSome_iff_exists.1 hsb
        have hamem : a ∈ keysOf s := (findVertex_isSome_iff s a).1 hsa
        have hbmem : b ∈ keysOf s := (findVertex_isSome_iff s b).1 hsb
        have hvac : va ∈ s.cache := List.mem_of_find?_eq_some ha
        simp only [ha, hb]
        by_cases hcond : b ≠ a ∧ b ∉ va.nn
        · rw [if_pos hcond]
          have hsk1 : skel (setV s a { va with nn := va.nn ++ [b] }) = skel s :=
            setV_skel hnd ha _ rfl rfl
          have hkeys1 : keysOf (setV s a { va with nn := va.nn ++ [b] }) = keysOf s :=
            keysOf_eq_of_skel hsk1
          have hnd1 : (keysOf (setV s a { va with nn := va.nn ++ [b] })).Nodup := by
            rw [hkeys1]; exact hnd
          have hnc1 : nnClosed s → nnClosed (setV s a { va with nn := va.nn ++ [b] }) := by
            intro h
            refine setV_nnClosed hkeys1 ?_ h
            intro w hw
            rcases List.mem_append.1 hw with hw1 | hw1
            · exact h va hvac w hw1
            · rw [List.mem_singleton.1 hw1]; exact hbmem
          by_cases hsb1 : (findVertex (setV s a { va with nn := va.nn ++ [b] }) b).isSome
          · obtain ⟨vb1, hb1⟩ := Option.isSome_iff_exists.1 hsb1
            simp only [hb1]
            have hvb1c : vb1 ∈ (setV s a { va with nn := va.nn ++ [b] }).cache :=
              List.mem_of_find?_eq_some hb1
            set vbrec : Vertex :=
              { vb1 with nn := if a ∈ vb1.nn then vb1.nn else vb1.nn ++ [a] } with hvbrec
            have hsk2 : skel (setV (setV s a { va with nn := va.nn ++ [b] }) b vbrec) =
                skel (setV s a { va with nn := va.nn ++ [b] }) :=
              setV_skel hnd1 hb1 _ rfl rfl
            have hkeys2 := keysOf_eq_of_skel hsk2
            have hnc2 : nnClosed s →
                nnClosed (setV (setV s a { va with nn := va.nn ++ [b] }) b vbrec) := by
              intro h
              refine setV_nnClosed hkeys2 ?_ (hnc1 h)
              intro w hw
              have hw2 : w ∈ (if a ∈ vb1.nn then vb1.nn else vb1.nn ++ [a]) := hw
              by_cases hab : a ∈ vb1.nn
              · rw [if_pos hab] at hw2
                exact hnc1 h vb1 hvb1c w hw2
              · rw [if_neg hab] at hw2
                rcases List.mem_append.1 hw2 with hw3 | hw3
                · exact hnc1 h vb1 hvb1c w hw3
                · rw [List.mem_singleton.1 hw3, hkeys1]; exact hamem
            set s2 := setV (setV s a { va with nn := va.nn ++ [b] }) b vbrec with hs2
            have hnd2 : (keysOf s2).Nodup := by rw [hkeys2]; exact hnd1
            obtain ⟨hsk3, hI3, hnc3⟩ := minimiser_skel s2 a hnd2
            have hkeys3 := keysOf_eq_of_skel hsk3
            by_cases hp : (minimiser s2 a).2
            · rw [if_pos hp]
              by_cases hsb3 : (findVertex (minimiser s2 a).1 b).isSome
              · obtain ⟨vb3, hb3⟩ := Option.isSome_iff_exists.1 hsb3
                simp only [hb3]
                have hvb3c : vb3 ∈ (minimiser s2 a).1.cache :=
                  List.mem_of_find?_eq_some hb3
                have hnd3 : (keysOf (minimiser s2 a).1).Nodup := by
                  rw [hkeys3]; exact hnd2
                have hsk4 : skel (setV (minimiser s2 a).1 b
                    { vb3 with min := false, check_min := false }) =
                    skel (minimiser s2 a).1 :=
                  setV_skel hnd3 hb3 _ rfl rfl
                have hkeys4 := keysOf_eq_of_skel hsk4
                refine ⟨hsk4.trans (hsk3.trans (hsk2.trans hsk1)), hI3.trans rfl, fun h => ?_⟩
                refine setV_nnClosed hkeys4 ?_ (hnc3 (hnc2 h))
                intro w hw
                exact hnc3 (hnc2 h) vb3 hvb3c w hw
              · have hb3 : findVertex (minimiser s2 a).1 b = none :=
                  Option.not_isSome_iff_eq_none.1 hsb3
                simp only [hb3]
                exact ⟨hsk3.trans (hsk2.trans hsk1), hI3.trans rfl, fun h => hnc3 (hnc2 h)⟩
            · rw [if_neg hp]
              exact ⟨hsk3.trans (hsk2.trans hsk1), hI3.trans rfl, fun h => hnc3 (hnc2 h)⟩
          · have hb1 : findVertex (setV s a { va with nn := va.nn ++ [b] }) b = none :=
              Option.not_isSome_iff_eq_none.1 hsb1
            simp only [hb1]
            set s2 := setV s a { va with nn := va.nn ++ [b] } with hs2
            have hnd2 : (keysOf s2).Nodup := hnd1
            obtain ⟨hsk3, hI3, hnc3⟩ := minimiser_skel s2 a hnd2
            have hkeys3 := keysOf_eq_of_skel hsk3
            by_cases hp : (minimiser s2 a).2
            · rw [if_pos hp]
              by_cases hsb3 : (findVertex (minimiser s2 a).1 b).isSome
              · obtain ⟨vb3, hb3⟩ := Option.isSome_iff_exists.1 hsb3
                simp only [hb3]
                have hvb3c : vb3 ∈ (minimiser s2 a).1.cache :=
                  List.mem_of_find?_eq_some hb3
                have hnd3 : (keysOf (minimiser s2 a).1).Nodup := by
                  rw [hkeys3]; exact hnd2
                have hsk4 : skel (setV (minimiser s2 a).1 b
                    { vb3 with min := false, check_min := false }) =
                    skel (minimiser s2 a).1 :=
                  setV_skel hnd3 hb3 _ rfl rfl
                have hkeys4 := keysOf_eq_of_skel hsk4
                refine ⟨hsk4.trans (hsk3.trans hsk1), hI3.trans rfl, fun h => ?_⟩
                refine setV_nnClosed hkeys4 ?_ (hnc3 (hnc1 h))
                intro w hw
                exact hnc3 (hnc1 h) vb3 hvb3c w hw
              · have hb3 : findVertex (minimiser s2 a).1 b = none :=
                  Option.not_isSome_iff_eq_none.1 hsb3
                simp only [hb3]
                exact ⟨hsk3.trans hsk1, hI3.trans rfl, fun h => hnc3 (hnc1 h)⟩
            · rw [if_neg hp]
              exact ⟨hsk3.trans hsk1, hI3.trans rfl, fun h => hnc3 (hnc1 h)⟩
        · rw [if_neg hcond]
          refine ⟨?_, ?_, ?_⟩ <;> first | rfl | exact fun h => h | trivial
      · have hb : findVertex s b = none := Option.not_isSome_iff_eq_none.1 hsb
        simp only [ha, hb]
        refine ⟨?_, ?_, ?_⟩ <;> first | rfl | exact fun h => h | trivial
    · have ha : findVertex s a = none := Option.not_isSome_iff_eq_none.1 hsa
      simp only [ha]
      cases findVertex s b <;>
        (refine ⟨?_, ?_, ?_⟩ <;> first | rfl | exact fun h => h | trivial)

theorem connect_VInv {d : Nat} {f : Key → ℚ} {s : VC} (h : VInv d f s) (a b : Key) :
    VInv d f (connect s a b) ∧ keysOf (connect s a b) = keysOf s := by
  obtain ⟨hsk, hI, hnc⟩ := connect_skel s a b h.key_nodup
  obtain ⟨hk, he, hf⟩ := connect_keysOf_err s a b
  exact ⟨VInv_of_skel h hsk hI (he.trans h.err_none ▸ he) hf (hnc h.nn_closed), hk⟩

theorem lookup_VInv {d : Nat} {f : Key → ℚ} {s : VC} (h : VInv d f s) (x : Key)
    (hx : isBinary d x) :
    VInv d f (lookup s x) ∧
    keysOf (lookup s x) = (if x ∈ keysOf s then keysOf s else keysOf s ++ [x]) := by
  by_cases hm : x ∈ keysOf s
  · rw [lookup_hit h.err_none hm, if_pos hm]
    exact ⟨h, rfl⟩
  · rw [if_neg hm, lookup_miss_eq h.err_none h.func_eq hm]
    set vNew : Vertex := { x := x, order := x.sum, f := f (rescale s.bounds x), nn := [], min := false, check_min := true, I := s.Index + 1 } with hvNew
    have hkeys : (s.cache ++ [vNew]).map (fun v => v.x) = keysOf s ++ [x] := by
      rw [List.map_append]; rfl
    have hnodup : (keysOf s ++ [x]).Nodup := by
      rw [List.nodup_append]
      refine ⟨h.key_nodup, List.nodup_singleton x, ?_⟩
      intro y hy hyx
      rw [List.mem_singleton.1 hyx] at hy
      exact hm hy
    constructor
    · refine ⟨h.func_eq, h.err_none, ?_, ?_, ?_, ?_, ?_⟩
      · -- idx
        show ∀ i : Fin (s.cache ++ [vNew]).length, ((s.cache ++ [vNew]).get i).I = (i : Nat)
        intro i
        obtain ⟨iv, hivlt⟩ := i
        have hil : iv < s.cache.length + 1 := by simpa using hivlt
        by_cases hi : iv < s.cache.length
        · rw [List.get_append iv hi]
          exact h.idx ⟨iv, hi⟩
        · have hieq : iv = s.cache.length := by omega
          have hg : (s.cache ++ [vNew]).get ⟨iv, hivlt⟩ = vNew := by
            have h2 : (s.cache ++ [vNew]).get? iv = some vNew := by
              rw [hieq, List.get?_append_right (le_refl _), Nat.sub_self]
              rfl
            rw [List.get?_eq_get hivlt] at h2
            exact Option.some.inj h2
          rw [hg]
          show s.Index + 1 = (iv : Int)
          rw [hieq, h.index_eq]
          push_cast
          ring
      · -- index_eq
        show s.Index + 1 = ((s.cache ++ [vNew]).length : Int) - 1
        rw [List.length_append, List.length_singleton]
        have h2 := h.index_eq
        omega
      · -- nn_closed
        intro v hv w hw
        show w ∈ (s.cache ++ [vNew]).map (fun v0 => v0.x)
        rw [hkeys]
        have hv2 : v ∈ s.cache ++ [vNew] := hv
        rcases List.mem_append.1 hv2 with h1 | h1
        · exact List.mem_append_left _ (h.nn_closed v h1 w hw)
        · rw [List.mem_singleton.1 h1] at hw
          exact absurd hw (List.not_mem_nil w)
      · -- key_nodup
        show ((s.cache ++ [vNew]).map (fun v => v.x)).Nodup
        rw [hkeys]
        exact hnodup
      · -- binary
        show ∀ k ∈ (s.cache ++ [vNew]).map (fun v => v.x), isBinary d k
        rw [hkeys]
        intro k hk
        rcases List.mem_append.1 hk with h1 | h1
        · exact h.binary k h1
        · rw [List.mem_singleton.1 h1]
          exact hx
    · show (s.cache ++ [vNew]).map (fun v => v.x) = keysOf s ++ [x]
      exact hkeys

theorem addV_eq (n : NState) (k : Key) (h : (lookup n.V k).err = none) :
    addV n k = { V := lookup n.V k, C0C := if k ∈ n.C0C then n.C0C else n.C0C ++ [k] } := by
  have h2 : addV n k = (if (lookup n.V k).err.isSome then { V := lookup n.V k, C0C := n.C0C } else { V := lookup n.V k, C0C := if k ∈ n.C0C then n.C0C else n.C0C ++ [k] }) := rfl
  rw [h2, h]
  rfl

theorem addV_NInv {d : Nat} {f : Key → ℚ} {n : NState} (h : NInv d f n) {k : Key}
    (hk : isBinary d k) :
    NInv d f (addV n k) ∧
    keysOf (addV n k).V = (if k ∈ keysOf n.V then keysOf n.V else keysOf n.V ++ [k]) ∧
    (addV n k).C0C = (addV n k).C0C := by
  obtain ⟨hV, hkeys⟩ := lookup_VInv h.vinv k hk
  rw [addV_eq n k hV.err_none]
  refine ⟨⟨hV, ?_⟩, hkeys, rfl⟩
  show (if k ∈ n.C0C then n.C0C else n.C0C ++ [k]) = keysOf (lookup n.V k)
  rw [hkeys, h.c0_keys]

theorem connectLookups_pres {d : Nat} {f : Key → ℚ} {m : NState} (h : NInv d f m)
    {a b : Key} (ha : a ∈ keysOf m.V) (hb : b ∈ keysOf m.V) :
    NInv d f { m with V := connect (lookup (lookup m.V a) b) a b } ∧
    keysOf (connect (lookup (lookup m.V a) b) a b) = keysOf m.V := by
  have h1 : lookup m.V a = m.V := lookup_hit h.vinv.err_none ha
  have h2 : lookup (lookup m.V a) b = m.V := by
    rw [h1]; exact lookup_hit h.vinv.err_none hb
  rw [h2]
  obtain ⟨hV, hk⟩ := connect_VInv h.vinv a b
  refine ⟨⟨hV, ?_⟩, hk⟩
  show m.C0C = keysOf (connect m.V a b)
  rw [hk]
  exact h.c0_keys

theorem connectFold_pres {d : Nat} {f : Key → ℚ} (xi2 : Key) :
    ∀ (xp : List Key) (m : NState), NInv d f m → xi2 ∈ keysOf m.V →
      (∀ x ∈ xp, x ∈ keysOf m.V) →
      NInv d f (xp.foldl (fun m2 x_ip =>
        { m2 with V := connect (lookup (lookup m2.V xi2) x_ip) xi2 x_ip }) m) ∧
      keysOf (xp.foldl (fun m2 x_ip =>
        { m2 with V := connect (lookup (lookup m2.V xi2) x_ip) xi2 x_ip }) m).V =
        keysOf m.V ∧
      (xp.foldl (fun m2 x_ip =>
        { m2 with V := connect (lookup (lookup m2.V xi2) x_ip) xi2 x_ip }) m).C0C =
        m.C0C := by
  intro xp
  induction xp with
  | nil => intro m h _ _; exact ⟨h, rfl, rfl⟩
  | cons x xs ih =>
      intro m h hxi2 hxp
      rw [List.foldl_cons]
      obtain ⟨h1, hk1⟩ := connectLookups_pres h hxi2 (hxp x (List.mem_cons_self x xs))
      have hxi2b : xi2 ∈
          keysOf ({ m with V := connect (lookup (lookup m.V xi2) x) xi2 x } : NState).V :=
        hk1.symm ▸ hxi2
      have hxpb : ∀ y ∈ xs, y ∈
          keysOf ({ m with V := connect (lookup (lookup m.V xi2) x) xi2 x } : NState).V :=
        fun y hy => hk1.symm ▸ hxp y (List.mem_cons_of_mem x hy)
      obtain ⟨h2, hk2, hc2⟩ := ih _ h1 hxi2b hxpb
      exact ⟨h2, hk2.trans hk1, hc2⟩

theorem foldl_preserve_mem {α β : Type _} (f : β → α → β) (P : β → Prop) :
    ∀ (l : List α), (∀ b, ∀ a ∈ l, P b → P (f b a)) → ∀ b, P b → P (l.foldl f b) := by
  intro l
  induction l with
  | nil => intro _ b hb; exact hb
  | cons a t ih =>
      intro h b hb
      rw [List.foldl_cons]
      exact ih (fun b2 a2 ha2 hb2 => h b2 a2 (List.mem_cons_of_mem a ha2) hb2) (f b a)
        (h b a (List.mem_cons_self a t) hb)

theorem XF_length (d : Nat) (S : Finset ℕ) : (XF d S).length = d := by
  simp [XF]

theorem XF_get? (d : Nat) (S : Finset ℕ) (i : Nat) (h : i < d) :
    (XF d S).get? i = some (if i ∈ S then (1 : ℚ) else 0) := by
  unfold XF
  rw [List.get?_map, List.get?_range h]
  rfl

theorem onesUpTo_length (d j : Nat) : (onesUpTo d j).length = d := by
  simp [onesUpTo]

theorem onesUpTo_get? (d j i : Nat) (h : i < d) :
    (onesUpTo d j).get? i = some (if i < j then (1 : ℚ) else 0) := by
  unfold onesUpTo
  rw [List.get?_map, List.get?_range h]
  rfl

theorem XF_set (d : Nat) (S : Finset ℕ) (i : Nat) (h : i < d) :
    (XF d S).set i 1 = XF d (insert i S) := by
  apply List.ext
  intro n
  by_cases hn : n < d
  · rw [XF_get? d (insert i S) n hn]
    by_cases hni : n = i
    · subst hni
      rw [List.get?_set_eq, XF_get? d S n hn]
      simp
    · rw [List.get?_set_ne _ _ (fun hh => hni hh.symm), XF_get? d S n hn]
      by_cases hmem : n ∈ S
      · rw [if_pos hmem, if_pos (Finset.mem_insert_of_mem hmem)]
      · rw [if_neg hmem, if_neg (by simp [Finset.mem_insert, hni, hmem])]
  · have h1 : ((XF d S).set i 1).get? n = none :=
      List.get?_eq_none.2 (by rw [List.length_set, XF_length]; omega)
    have h2 : (XF d (insert i S)).get? n = none :=
      List.get?_eq_none.2 (by rw [XF_length]; omega)
    rw [h1, h2]

theorem onesUpTo_set (d t : Nat) (h : t < d) :
    (onesUpTo d t).set t 1 = onesUpTo d (t + 1) := by
  apply List.ext
  intro n
  by_cases hn : n < d
  · rw [onesUpTo_get? d (t + 1) n hn]
    by_cases hnt : n = t
    · subst hnt
      rw [List.get?_set_eq, onesUpTo_get? d n n hn]
      simp
    · rw [List.get?_set_ne _ _ (fun hh => hnt hh.symm), onesUpTo_get? d t n hn]
      by_cases hlt : n < t
      · rw [if_pos hlt, if_pos (by omega)]
      · rw [if_neg hlt, if_neg (by omega)]
  · have h1 : ((onesUpTo d t).set t 1).get? n = none :=
      List.get?_eq_none.2 (by rw [List.length_set, onesUpTo_length]; omega)
    have h2 : (onesUpTo d (t + 1)).get? n = none :=
      List.get?_eq_none.2 (by rw [onesUpTo_length]; omega)
    rw [h1, h2]

theorem XF_binary (d : Nat) (S : Finset ℕ) : isBinary d (XF d S) := by
  refine ⟨XF_length d S, ?_⟩
  intro q hq
  obtain ⟨j, _, hj⟩ := List.mem_map.1 hq
  by_cases hjS : j ∈ S
  · right; rw [← hj, if_pos hjS]
  · left; rw [← hj, if_neg hjS]

theorem replicate_zero_eq_XF (d : Nat) : List.replicate d (0 : ℚ) = XF d ∅ := by
  apply List.ext
  intro n
  by_cases hn : n < d
  · rw [XF_get? d ∅ n hn, List.get?_eq_get (by simpa using hn), List.get_replicate]
    simp
  · rw [List.get?_eq_none.2 (by simpa using hn),
        List.get?_eq_none.2 (by rw [XF_length]; omega)]

theorem replicate_one_eq_XF (d : Nat) : List.replicate d (1 : ℚ) = XF d (Finset.range d) := by
  apply List.ext
  intro n
  by_cases hn : n < d
  · rw [XF_get? d (Finset.range d) n hn, List.get?_eq_get (by simpa using hn),
        List.get_replicate]
    rw [if_pos (Finset.mem_range.2 hn)]
  · rw [List.get?_eq_none.2 (by simpa using hn),
        List.get?_eq_none.2 (by rw [XF_length]; omega)]

theorem onesUpTo_zero (d : Nat) : onesUpTo d 0 = List.replicate d (0 : ℚ) := by
  apply List.ext
  intro n
  by_cases hn : n < d
  · rw [onesUpTo_get? d 0 n hn, List.get?_eq_get (by simpa using hn), List.get_replicate]
    simp
  · rw [List.get?_eq_none.2 (by rw [onesUpTo_length]; omega),
        List.get?_eq_none.2 (by simpa using hn)]

theorem onesUpTo_full (d j : Nat) (h : d ≤ j) : onesUpTo d j = List.replicate d (1 : ℚ) := by
  apply List.ext
  intro n
  by_cases hn : n < d
  · rw [onesUpTo_get? d j n hn, List.get?_eq_get (by simpa using hn), List.get_replicate]
    rw [if_pos (by omega)]
  · rw [List.get?_eq_none.2 (by rw [onesUpTo_length]; omega),
        List.get?_eq_none.2 (by simpa using hn)]

theorem onesUpTo_ne {d a b : Nat} (hab : a < b) (had : a < d) :
    onesUpTo d a ≠ onesUpTo d b := by
  intro h
  have h2 := congrArg (fun l => l.get? a) h
  simp only [onesUpTo_get? d a a had, onesUpTo_get? d b a had] at h2
  rw [if_neg (lt_irrefl a), if_pos hab] at h2
  exact absurd (Option.some.inj h2) (by norm_num)

theorem binary_eq_XF {d : Nat} {k : Key} (h : isBinary d k) :
    k = XF d ((Finset.range d).filter (fun j => k.getD j 0 = 1)) := by
  obtain ⟨hlen, hq⟩ := h
  apply List.ext
  intro n
  by_cases hn : n < d
  · rw [XF_get? d _ n hn]
    have hn2 : n < k.length := by omega
    rw [List.get?_eq_get hn2]
    have hget : k.getD n 0 = k.get ⟨n, hn2⟩ := List.getD_eq_get k 0 hn2
    rcases hq (k.get ⟨n, hn2⟩) (List.get_mem k n hn2) with h0 | h1
    · have hnot : n ∉ (Finset.range d).filter (fun j => k.getD j 0 = 1) := by
        rw [Finset.mem_filter]
        rintro ⟨-, hcon⟩
        rw [hget, h0] at hcon
        exact absurd hcon (by norm_num)
      rw [h0, if_neg hnot]
    · have hymem : n ∈ (Finset.range d).filter (fun j => k.getD j 0 = 1) := by
        rw [Finset.mem_filter]
        exact ⟨Finset.mem_range.2 hn, by rw [hget, h1]⟩
      rw [h1, if_pos hymem]
  · rw [List.get?_eq_none.2 (by omega), List.get?_eq_none.2 (by rw [XF_length]; omega)]

theorem XF_inj {d : Nat} {S T : Finset ℕ} (hS : S ⊆ Finset.range d)
    (hT : T ⊆ Finset.range d) (h : XF d S = XF d T) : S = T := by
  apply Finset.ext
  intro j
  constructor
  · intro hj
    have hjd : j < d := Finset.mem_range.1 (hS hj)
    have h2 := congrArg (fun l => l.get? j) h
    simp only [XF_get? d S j hjd, XF_get? d T j hjd] at h2
    rw [if_pos hj] at h2
    by_cases hjT : j ∈ T
    · exact hjT
    · rw [if_neg hjT] at h2
      exact absurd (Option.some.inj h2) (by norm_num)
  · intro hj
    have hjd : j < d := Finset.mem_range.1 (hT hj)
    have h2 := congrArg (fun l => l.get? j) h
    simp only [XF_get? d S j hjd, XF_get? d T j hjd] at h2
    rw [if_pos hj] at h2
    by_cases hjS : j ∈ S
    · exact hjS
    · rw [if_neg hjS] at h2
      exact absurd (Option.some.inj h2) (by norm_num)

theorem keys_count {d : Nat} {keys : List Key} (hnd : keys.Nodup)
    (hb : ∀ k ∈ keys, isBinary d k)
    (hc : ∀ S : Finset ℕ, S ⊆ Finset.range d → XF d S ∈ keys) :
    keys.length = 2 ^ d := by
  have hset : keys.toFinset = (Finset.range d).powerset.image (XF d) := by
    apply Finset.ext
    intro k
    rw [List.mem_toFinset, Finset.mem_image]
    constructor
    · intro hk
      refine ⟨(Finset.range d).filter (fun j => k.getD j 0 = 1), ?_, ?_⟩
      · exact Finset.mem_powerset.2 (Finset.filter_subset _ _)
      · exact (binary_eq_XF (hb k hk)).symm
    · rintro ⟨S, hS, rfl⟩
      exact hc S (Finset.mem_powerset.1 hS)
  have hcard : keys.toFinset.card = keys.length := List.toFinset_card_of_nodup hnd
  have hinj : Set.InjOn (XF d) ((Finset.range d).powerset : Finset (Finset ℕ)) := by
    intro S hS T hT hST
    have hS2 : S ⊆ Finset.range d := Finset.mem_powerset.1 (Finset.mem_coe.1 hS)
    have hT2 : T ⊆ Finset.range d := Finset.mem_powerset.1 (Finset.mem_coe.1 hT)
    exact XF_inj hS2 hT2 hST
  rw [← hcard, hset, Finset.card_image_of_injOn hinj, Finset.card_powerset,
      Finset.card_range]

theorem onesUpTo_binary (d j : Nat) : isBinary d (onesUpTo d j) := by
  refine ⟨onesUpTo_length d j, ?_⟩
  intro q hq
  obtain ⟨i, _, hi⟩ := List.mem_map.1 hq
  by_cases hij : i < j
  · right; rw [← hi, if_pos hij]
  · left; rw [← hi, if_neg hij]

theorem symList_succ (d t : Nat) :
    symList d t ++ [onesUpTo d (t + 1)] = symList d (t + 1) := by
  unfold symList
  rw [List.range_succ, List.map_append]
  simp [List.append_assoc]

theorem onesUpTo_mem_symList (d t : Nat) : onesUpTo d t ∈ symList d t := by
  cases t with
  | zero => simp [symList]
  | succ u =>
      unfold symList
      rw [List.mem_append]
      right
      exact List.mem_map.2 ⟨u, List.mem_range.2 (Nat.lt_succ_self u), rfl⟩

theorem suprenum_mem_symList (d t : Nat) : onesUpTo d d ∈ symList d t := by
  unfold symList
  rw [List.mem_append]
  left
  exact List.mem_cons_of_mem _ (List.mem_cons_self _ _)

theorem onesUpTo_not_mem_symList (d t : Nat) (h : t + 1 < d) :
    onesUpTo d (t + 1) ∉ symList d t := by
  intro hmem
  unfold symList at hmem
  rcases List.mem_append.1 hmem with h1 | h1
  · rcases List.mem_cons.1 h1 with h2 | h2
    · exact onesUpTo_ne (Nat.succ_pos t) (by omega) h2.symm
    · rcases List.mem_cons.1 h2 with h3 | h3
      · exact onesUpTo_ne h h h3
      · cases h3
  · obtain ⟨u, hu, hequ⟩ := List.mem_map.1 h1
    have hu2 : u < t := List.mem_range.1 hu
    exact onesUpTo_ne (show u + 1 < t + 1 by omega) (by omega) hequ

theorem perm_main (d : Nat) (f : Key → ℚ) :
    ∀ (fuel : Nat) (ip : List Nat) (xp : List Key) (xi : Key) (n : NState),
      NInv d f n →
      (∀ j ∈ ip, j < d) → ip.Nodup →
      xi = XF d ip.toFinset →
      xi ∈ keysOf n.V →
      (∀ x ∈ xp, x ∈ keysOf n.V) →
      NInv d f (perm d fuel ip xp xi n) ∧
      (∀ k ∈ keysOf n.V, k ∈ keysOf (perm d fuel ip xp xi n).V) ∧
      (d - ip.length ≤ fuel →
        ∀ S : Finset ℕ, ip.toFinset ⊆ S → S ⊆ Finset.range d →
          XF d S ∈ keysOf (perm d fuel ip xp xi n).V) := by
  intro fuel
  induction fuel with
  | zero =>
      intro ip xp xi n hInv hipd hipnd hxi hxik hxpk
      refine ⟨hInv, fun k hk => hk, ?_⟩
      intro hfuel S hPS hSr
      have hip_len : d ≤ ip.length := by omega
      have hipfin : ip.toFinset = Finset.range d := by
        apply Finset.eq_of_subset_of_card_le
        · intro j hj
          exact Finset.mem_range.2 (hipd j (List.mem_toFinset.1 hj))
        · rw [Finset.card_range, List.toFinset_card_of_nodup hipnd]
          exact hip_len
      have hSeq : S = ip.toFinset :=
        Finset.Subset.antisymm (by rw [hipfin]; exact hSr) hPS
      rw [hSeq, ← hxi]
      exact hxik
  | succ fuel ih =>
      intro ip xp xi n hInv hipd hipnd hxi hxik hxpk
      rw [perm_succ]
      have hstep : ∀ (m : NState) (i : Nat), i < d → i ∉ ip → NInv d f m →
          xi ∈ keysOf m.V → (∀ x ∈ xp, x ∈ keysOf m.V) →
          NInv d f (permStep d fuel ip xp xi m i) ∧
          (∀ k ∈ keysOf m.V, k ∈ keysOf (permStep d fuel ip xp xi m i).V) ∧
          (d - ip.length ≤ fuel + 1 →
            ∀ S : Finset ℕ, insert i ip.toFinset ⊆ S → S ⊆ Finset.range d →
              XF d S ∈ keysOf (permStep d fuel ip xp xi m i).V) := by
        intro m i hid hinotip hm hxim hxpm
        have hxiXF : xi.set i 1 = XF d (insert i ip.toFinset) := by
          rw [hxi, XF_set d ip.toFinset i hid]
        have hb2 : isBinary d (xi.set i 1) := by rw [hxiXF]; exact XF_binary d _
        obtain ⟨hA, hAkeys, -⟩ := addV_NInv hm hb2
        have hmono1 : ∀ k ∈ keysOf m.V, k ∈ keysOf (addV m (xi.set i 1)).V := by
          intro k hk
          rw [hAkeys]
          by_cases hmem : xi.set i 1 ∈ keysOf m.V
          · rw [if_pos hmem]; exact hk
          · rw [if_neg hmem]; exact List.mem_append_left _ hk
        have hxi2mem : xi.set i 1 ∈ keysOf (addV m (xi.set i 1)).V := by
          rw [hAkeys]
          by_cases hmem : xi.set i 1 ∈ keysOf m.V
          · rw [if_pos hmem]; exact hmem
          · rw [if_neg hmem]
            exact List.mem_append_right _ (List.mem_singleton.2 rfl)
        set xi2 := xi.set i 1 with hxi2def
        set n1 := addV m xi2 with hn1def
        obtain ⟨hB, hBkeys⟩ := connectLookups_pres hA hxi2mem (hmono1 xi hxim)
        set n2 := ({ n1 with V := connect (lookup (lookup n1.V xi2) xi) xi2 xi } : NState)
          with hn2def
        have hn2keys : keysOf n2.V = keysOf n1.V := hBkeys
        have hxi2n2 : xi2 ∈ keysOf n2.V := by rw [hn2keys]; exact hxi2mem
        have hxpn2 : ∀ x ∈ xp, x ∈ keysOf n2.V := by
          intro x hx
          rw [hn2keys]
          exact hmono1 x (hxpm x hx)
        obtain ⟨hC, hCkeys, hCC0⟩ := connectFold_pres xi2 xp n2 hB hxi2n2 hxpn2
        set n3 := xp.foldl (fun m2 x_ip =>
          { m2 with V := connect (lookup (lookup m2.V xi2) x_ip) xi2 x_ip }) n2 with hn3def
        have hps : permStep d fuel ip xp xi m i =
            perm d fuel (ip ++ [i]) (xp ++ [xi]) xi2 n3 := rfl
        rw [hps]
        have hipd2 : ∀ j ∈ ip ++ [i], j < d := by
          intro j hj
          rcases List.mem_append.1 hj with h1 | h1
          · exact hipd j h1
          · rw [List.mem_singleton.1 h1]; exact hid
        have hipnd2 : (ip ++ [i]).Nodup := by
          rw [List.nodup_append]
          exact ⟨hipnd, List.nodup_singleton i,
            fun j hj hji => hinotip ((List.mem_singleton.1 hji) ▸ hj)⟩
        have htf : (ip ++ [i]).toFinset = insert i ip.toFinset := by
          rw [List.toFinset_append]
          have h1 : ([i] : List Nat).toFinset = {i} := by simp
          rw [h1, Finset.union_comm, ← Finset.insert_eq]
        have hxi22 : xi2 = XF d (ip ++ [i]).toFinset := by rw [htf]; exact hxiXF
        have hxi2n3 : xi2 ∈ keysOf n3.V := by rw [hCkeys]; exact hxi2n2
        have hxpn3 : ∀ x ∈ xp ++ [xi], x ∈ keysOf n3.V := by
          intro x hx
          rw [hCkeys]
          rcases List.mem_append.1 hx with h1 | h1
          · exact hxpn2 x h1
          · rw [List.mem_singleton.1 h1, hn2keys]
            exact hmono1 xi hxim
        obtain ⟨hD, hDkeys, hDcov⟩ :=
          ih (ip ++ [i]) (xp ++ [xi]) xi2 n3 hC hipd2 hipnd2 hxi22 hxi2n3 hxpn3
        refine ⟨hD, ?_, ?_⟩
        · intro k hk
          refine hDkeys k ?_
          rw [hCkeys, hn2keys]
          exact hmono1 k hk
        · intro hfuel S hiS hSr
          have hfuel2 : d - (ip ++ [i]).length ≤ fuel := by
            rw [List.length_append, List.length_singleton]
            omega
          exact hDcov hfuel2 S (htf.symm ▸ hiS) hSr
      set l := (List.range d).filter (fun x => decide (x ∉ ip)) with hl
      have hlprop : ∀ i ∈ l, i < d ∧ i ∉ ip := by
        intro i hi
        rw [hl, List.mem_filter] at hi
        exact ⟨List.mem_range.1 hi.1, by simpa using hi.2⟩
      have hQ := foldl_preserve_mem (permStep d fuel ip xp xi)
        (fun m => NInv d f m ∧ (∀ k ∈ keysOf n.V, k ∈ keysOf m.V) ∧ xi ∈ keysOf m.V ∧
          (∀ x ∈ xp, x ∈ keysOf m.V)) l
        (by
          intro m a ha hQm
          obtain ⟨h1, h2, h3, h4⟩ := hQm
          obtain ⟨ha1, ha2⟩ := hlprop a ha
          obtain ⟨hs1, hs2, -⟩ := hstep m a ha1 ha2 h1 h3 h4
          exact ⟨hs1, fun k hk => hs2 k (h2 k hk), hs2 xi h3, fun x hx => hs2 x (h4 x hx)⟩)
        n ⟨hInv, fun k hk => hk, hxik, hxpk⟩
      obtain ⟨hQ1, hQ2, hQ3, hQ4⟩ := hQ
      refine ⟨hQ1, hQ2, ?_⟩
      intro hfuel S hPS hSr
      by_cases hSP : S = ip.toFinset
      · rw [hSP, ← hxi]
        exact hQ3
      · obtain ⟨i, hiS, hinotP⟩ := Finset.exists_of_ssubset
          (Finset.ssubset_iff_subset_ne.2 ⟨hPS, fun h => hSP h.symm⟩)
        have hid : i < d := Finset.mem_range.1 (hSr hiS)
        have hinotip : i ∉ ip := fun h => hinotP (List.mem_toFinset.2 h)
        have hil : i ∈ l := by
          rw [hl, List.mem_filter]
          exact ⟨List.mem_range.2 hid, by simpa using hinotip⟩
        obtain ⟨l1, l2, hldecomp⟩ := List.append_of_mem hil
        rw [hldecomp, List.foldl_append, List.foldl_cons]
        have hQm1 := foldl_preserve_mem (permStep d fuel ip xp xi)
          (fun m => NInv d f m ∧ (∀ k ∈ keysOf n.V, k ∈ keysOf m.V) ∧ xi ∈ keysOf m.V ∧
            (∀ x ∈ xp, x ∈ keysOf m.V)) l1
          (by
            intro m a ha hQm
            obtain ⟨h1, h2, h3, h4⟩ := hQm
            have ha0 : a ∈ l := by
              rw [hldecomp]
              exact List.mem_append_left _ ha
            obtain ⟨ha1, ha2⟩ := hlprop a ha0
            obtain ⟨hs1, hs2, -⟩ := hstep m a ha1 ha2 h1 h3 h4
            exact ⟨hs1, fun k hk => hs2 k (h2 k hk), hs2 xi h3,
              fun x hx => hs2 x (h4 x hx)⟩)
          n ⟨hInv, fun k hk => hk, hxik, hxpk⟩
      /- m1 facts -/
        obtain ⟨hm1A, hm1B, hm1C, hm1D⟩ := hQm1
        obtain ⟨hs1, hs2, hs3⟩ := hstep _ i hid hinotip hm1A hm1C hm1D
        have hcovm2 : XF d S ∈
            keysOf (permStep d fuel ip xp xi
              (List.foldl (permStep d fuel ip xp xi) n l1) i).V := by
          refine hs3 hfuel S ?_ hSr
          intro j hj
          rcases Finset.mem_insert.1 hj with h1 | h1
          · rw [h1]; exact hiS
          · exact hPS h1
        have hfinal := foldl_preserve_mem (permStep d fuel ip xp xi)
          (fun m => NInv d f m ∧ xi ∈ keysOf m.V ∧ (∀ x ∈ xp, x ∈ keysOf m.V) ∧
            XF d S ∈ keysOf m.V) l2
          (by
            intro m a ha hQm
            obtain ⟨h1, h2, h3, h4⟩ := hQm
            have ha0 : a ∈ l := by
              rw [hldecomp]
              exact List.mem_append_right _ (List.mem_cons_of_mem i ha)
            obtain ⟨ha1, ha2⟩ := hlprop a ha0
            obtain ⟨hs1b, hs2b, -⟩ := hstep m a ha1 ha2 h1 h2 h3
            exact ⟨hs1b, hs2b xi h2, fun x hx => hs2b x (h3 x hx), hs2b _ h4⟩)
          _ ⟨hs1, hs2 xi hm1C, fun x hx => hs2 x (hm1D x hx), hcovm2⟩
        exact hfinal.2.2.2

theorem addV_mem_self {d : Nat} {f : Key → ℚ} {n : NState} (h : NInv d f n) {k : Key}
    (hk : isBinary d k) : k ∈ keysOf (addV n k).V := by
  obtain ⟨-, hkeys, -⟩ := addV_NInv h hk
  rw [hkeys]
  by_cases hmem : k ∈ keysOf n.V
  · rw [if_pos hmem]; exact hmem
  · rw [if_neg hmem]; exact List.mem_append_right _ (List.mem_singleton.2 rfl)

theorem addV_mem_mono {d : Nat} {f : Key → ℚ} {n : NState} (h : NInv d f n) {k : Key}
    (hk : isBinary d k) : ∀ y ∈ keysOf n.V, y ∈ keysOf (addV n k).V := by
  obtain ⟨-, hkeys, -⟩ := addV_NInv h hk
  intro y hy
  rw [hkeys]
  by_cases hmem : k ∈ keysOf n.V
  · rw [if_pos hmem]; exact hy
  · rw [if_neg hmem]; exact List.mem_append_left _ hy

theorem NInv_init (d : Nat) (f : Key → ℚ) (bounds : Option (List (ℚ × ℚ))) :
    NInv d f { V := emptyVC (okF f) bounds, C0C := [] } := by
  refine ⟨⟨rfl, rfl, ?_, ?_, ?_, ?_, ?_⟩, rfl⟩
  · intro i
    exact absurd i.isLt (Nat.not_lt_zero _)
  · show (-1 : Int) = ((0 : Nat) : Int) - 1
    norm_num
  · intro v hv
    cases hv
  · show (([] : List Vertex).map (fun v => v.x)).Nodup
    simp
  · intro k hk
    cases hk

theorem nCube_nonsym (d : Nat) (f : Key → ℚ) (bounds : Option (List (ℚ × ℚ))) :
    NInv d f (nCube d false (emptyVC (okF f) bounds)).1 ∧
    (∀ S : Finset ℕ, S ⊆ Finset.range d →
      XF d S ∈ keysOf (nCube d false (emptyVC (okF f) bounds)).1.V) := by
  have h0 := NInv_init d f bounds
  have hor : isBinary d (List.replicate d (0 : ℚ)) := by
    rw [replicate_zero_eq_XF]; exact XF_binary d ∅
  have hsu : isBinary d (List.replicate d (1 : ℚ)) := by
    rw [replicate_one_eq_XF]; exact XF_binary d _
  obtain ⟨h1, -, -⟩ := addV_NInv h0 hor
  obtain ⟨h2, -, -⟩ := addV_NInv h1 hsu
  have hn : (nCube d false (emptyVC (okF f) bounds)).1 =
      perm d (d + 1) [] [List.replicate d 0] (List.replicate d 0)
        (addV (addV { V := emptyVC (okF f) bounds, C0C := [] }
          (List.replicate d 0)) (List.replicate d 1)) := rfl
  have hxi : (List.replicate d (0 : ℚ)) = XF d ([] : List Nat).toFinset := by
    rw [replicate_zero_eq_XF]
    rfl
  have horig2 : List.replicate d (0 : ℚ) ∈
      keysOf (addV (addV { V := emptyVC (okF f) bounds, C0C := [] }
        (List.replicate d 0)) (List.replicate d 1)).V :=
    addV_mem_mono h1 hsu _ (addV_mem_self h0 hor)
  have hxp2 : ∀ x ∈ [List.replicate d (0 : ℚ)], x ∈
      keysOf (addV (addV { V := emptyVC (okF f) bounds, C0C := [] }
        (List.replicate d 0)) (List.replicate d 1)).V := by
    intro x hx
    rw [List.mem_singleton.1 hx]
    exact horig2
  obtain ⟨hI, -, hcov⟩ := perm_main d f (d + 1) [] [List.replicate d 0]
    (List.replicate d 0)
    (addV (addV { V := emptyVC (okF f) bounds, C0C := [] }
      (List.replicate d 0)) (List.replicate d 1))
    h2 (fun j hj => absurd hj (List.not_mem_nil j)) List.nodup_nil hxi horig2 hxp2
  constructor
  · rw [hn]; exact hI
  · intro S hS
    rw [hn]
    exact hcov (by simp) S (by simp) hS

theorem permSym_main (d : Nat) (f : Key → ℚ) :
    ∀ (fuel t : Nat) (xp : List Key) (n : NState),
      NInv d f n →
      keysOf n.V = symList d t →
      t < d →
      (∀ x ∈ xp, x ∈ keysOf n.V) →
      d - t ≤ fuel →
      NInv d f (permSym d fuel t xp (onesUpTo d t) n) ∧
      keysOf (permSym d fuel t xp (onesUpTo d t) n).V = symList d (d - 1) := by
  intro fuel
  induction fuel with
  | zero => intro t xp n _ _ htd _ hfuel; omega
  | succ fuel ih =>
      intro t xp n hInv hkeys htd hxp hfuel
      have hcond : t < (onesUpTo d t).length := by
        rw [onesUpTo_length]; exact htd
      simp only [permSym]
      rw [if_pos hcond, onesUpTo_set d t htd]
      have hxi_mem : onesUpTo d t ∈ keysOf n.V := by
        rw [hkeys]; exact onesUpTo_mem_symList d t
      have hbin : isBinary d (onesUpTo d (t + 1)) := onesUpTo_binary d (t + 1)
      obtain ⟨hA, hAkeys, -⟩ := addV_NInv hInv hbin
      have hxi2mem : onesUpTo d (t + 1) ∈ keysOf (addV n (onesUpTo d (t + 1))).V :=
        addV_mem_self hInv hbin
      have hmono1 := addV_mem_mono hInv hbin
      obtain ⟨hB, hBkeys⟩ := connectLookups_pres hA hxi2mem (hmono1 _ hxi_mem)
      set n1 := addV n (onesUpTo d (t + 1)) with hn1def
      set n2 := ({ n1 with V := connect (lookup (lookup n1.V (onesUpTo d (t + 1))) (onesUpTo d t)) (onesUpTo d (t + 1)) (onesUpTo d t) } : NState) with hn2def
      have hn2keys : keysOf n2.V = keysOf n1.V := hBkeys
      have hxi2n2 : onesUpTo d (t + 1) ∈ keysOf n2.V := by
        rw [hn2keys]; exact hxi2mem
      have hxpn2 : ∀ x ∈ xp, x ∈ keysOf n2.V := by
        intro x hx
        rw [hn2keys]
        exact hmono1 x (hxp x hx)
      obtain ⟨hC, hCkeys, -⟩ := connectFold_pres (onesUpTo d (t + 1)) xp n2 hB hxi2n2 hxpn2
      set n3 := xp.foldl (fun m2 x_ip =>
        { m2 with V := connect (lookup (lookup m2.V (onesUpTo d (t + 1))) x_ip) (onesUpTo d (t + 1)) x_ip }) n2 with hn3def
      by_cases hterm : t + 1 = d
      · rw [if_pos hterm]
        have hmem2 : onesUpTo d (t + 1) ∈ keysOf n.V := by
          rw [hkeys, hterm]
          exact suprenum_mem_symList d t
        have hkeys3 : keysOf n3.V = symList d t := by
          rw [hCkeys, hn2keys, hn1def, hAkeys, if_pos hmem2, hkeys]
        have ht1 : t = d - 1 := by omega
        exact ⟨hC, by rw [hkeys3, ht1]⟩
      · rw [if_neg hterm]
        have ht1d : t + 1 < d := by omega
        have hnotmem : onesUpTo d (t + 1) ∉ keysOf n.V := by
          rw [hkeys]
          exact onesUpTo_not_mem_symList d t ht1d
        have hkeys3 : keysOf n3.V = symList d (t + 1) := by
          rw [hCkeys, hn2keys, hn1def, hAkeys, if_neg hnotmem, hkeys]
          exact symList_succ d t
        have hxp3 : ∀ x ∈ xp ++ [onesUpTo d t], x ∈ keysOf n3.V := by
          intro x hx
          rw [hCkeys, hn2keys]
          rcases List.mem_append.1 hx with hx1 | hx1
          · exact hmono1 x (hxp x hx1)
          · rw [List.mem_singleton.1 hx1]
            exact hmono1 _ hxi_mem
        exact ih (t + 1) (xp ++ [onesUpTo d t]) n3 hC hkeys3 ht1d hxp3 (by omega)

theorem nCube_sym (d : Nat) (f : Key → ℚ) (bounds : Option (List (ℚ × ℚ)))
    (hd : 0 < d) :
    NInv d f (nCube d true (emptyVC (okF f) bounds)).1 ∧
    keysOf (nCube d true (emptyVC (okF f) bounds)).1.V = symList d (d - 1) := by
  have hn : (nCube d true (emptyVC (okF f) bounds)).1 =
      permSym d (d + 1) 0 [List.replicate d 0] (List.replicate d 0)
        (addV (addV { V := emptyVC (okF f) bounds, C0C := [] }
          (List.replicate d 0)) (List.replicate d 1)) := rfl
  have e0 : List.replicate d (0 : ℚ) = onesUpTo d 0 := (onesUpTo_zero d).symm
  have e1 : List.replicate d (1 : ℚ) = onesUpTo d d :=
    (onesUpTo_full d d (le_refl d)).symm
  rw [hn, e0, e1]
  have h0 := NInv_init d f bounds
  have hor : isBinary d (onesUpTo d 0) := onesUpTo_binary d 0
  have hsu : isBinary d (onesUpTo d d) := onesUpTo_binary d d
  obtain ⟨h1, h1keys, -⟩ := addV_NInv h0 hor
  obtain ⟨h2, h2keys, -⟩ := addV_NInv h1 hsu
  have hkeys0 : keysOf ({ V := emptyVC (okF f) bounds, C0C := [] } : NState).V = [] := rfl
  have hkeys1 : keysOf (addV { V := emptyVC (okF f) bounds, C0C := [] }
      (onesUpTo d 0)).V = [onesUpTo d 0] := by
    rw [h1keys, hkeys0, if_neg (List.not_mem_nil _)]
    rfl
  have hne : onesUpTo d d ∉ [onesUpTo d 0] := by
    rw [List.mem_singleton]
    intro hh
    exact onesUpTo_ne hd hd hh.symm
  have hkeys2 : keysOf (addV (addV { V := emptyVC (okF f) bounds, C0C := [] }
      (onesUpTo d 0)) (onesUpTo d d)).V = symList d 0 := by
    rw [h2keys, hkeys1, if_neg hne]
    simp [symList]
  have hxp0 : ∀ x ∈ [onesUpTo d 0], x ∈
      keysOf (addV (addV { V := emptyVC (okF f) bounds, C0C := [] }
        (onesUpTo d 0)) (onesUpTo d d)).V := by
    intro x hx
    rw [List.mem_singleton.1 hx]
    exact addV_mem_mono h1 hsu _ (addV_mem_self h0 hor)
  exact permSym_main d f (d + 1) 0 [onesUpTo d 0]
    (addV (addV { V := emptyVC (okF f) bounds, C0C := [] }
      (onesUpTo d 0)) (onesUpTo d d))
    h2 hkeys2 hd hxp0 (by omega)

theorem homology_group_rank_skel (s : VC) (cell : Cell) (hnd : (keysOf s).Nodup) :
    skel (homology_group_rank s cell).1 = skel s ∧
    (homology_group_rank s cell).1.Index = s.Index ∧
    (homology_group_rank s cell).1.err = s.err ∧
    (homology_group_rank s cell).1.func = s.func ∧
    (nnClosed s → nnClosed (homology_group_rank s cell).1) ∧
    (homology_group_rank s cell).2.1.C = cell.C := by
  unfold homology_group_rank
  cases hcase : cell.hg_n with
  | some v =>
      simp only [hcase]
      refine ⟨?_, ?_, ?_, ?_, ?_, ?_⟩ <;> first | rfl | exact fun h => h | trivial
  | none =>
      simp only [hcase]
      have hP := foldl_preserve (fun (acc : VC × Int) k =>
          let q := minimiser acc.1 k
          (q.1, if q.2 then acc.2 + 1 else acc.2))
        (fun acc => skel acc.1 = skel s ∧ acc.1.Index = s.Index ∧ acc.1.err = s.err ∧
          acc.1.func = s.func ∧ (nnClosed s → nnClosed acc.1))
        (by
          intro acc k hacc
          obtain ⟨h1, h2, h3, h4, h5⟩ := hacc
          have hndacc : (keysOf acc.1).Nodup := by
            rw [keysOf_eq_of_skel h1]; exact hnd
          obtain ⟨hs1, hs2, hs3⟩ := minimiser_skel acc.1 k hndacc
          obtain ⟨-, hse, hsf⟩ := minimiser_keysOf_err acc.1 k
          exact ⟨hs1.trans h1, hs2.trans h2, hse.trans h3, hsf.trans h4,
            fun h => hs3 (h5 h)⟩)
        cell.C (s, 0) ⟨rfl, rfl, rfl, rfl, fun h => h⟩
      obtain ⟨k1, k2, k3, k4, k5⟩ := hP
      refine ⟨?_, ?_, ?_, ?_, ?_, ?_⟩ <;>
        first | exact k1 | exact k2 | exact k3 | exact k4 | exact k5 | rfl | trivial

theorem chStep_ok (o sp : Key) {f : Key → ℚ} (acc : Cmplx × Cell × List Key) (vk : Key)
    (he : acc.1.V.err = none) (hf : acc.1.V.func = okF f) :
    (chStep o sp acc vk).1.V.err = none ∧ (chStep o sp acc vk).1.V.func = okF f ∧
    (chStep o sp acc vk).2.2.length = acc.2.2.length + 1 := by
  simp only [chStep]
  obtain ⟨he2, hf2⟩ := lookup_okF he hf (List.zipWith (fun a b => a + b)
    (List.zipWith (fun o2 u => o2 - o2 * u) o vk)
    (List.zipWith (fun sp2 u => sp2 * u) sp vk))
  have hne : ¬ (lookup acc.1.V (List.zipWith (fun a b => a + b)
      (List.zipWith (fun o2 u => o2 - o2 * u) o vk)
      (List.zipWith (fun sp2 u => sp2 * u) sp vk))).err.isSome = true := by
    rw [he2]; simp
  rw [if_neg hne]
  refine ⟨he2, hf2, ?_⟩
  simp

theorem chStep_fold (o sp : Key) (f : Key → ℚ) :
    ∀ (l : List Key) (acc : Cmplx × Cell × List Key),
      acc.1.V.err = none → acc.1.V.func = okF f →
      (l.foldl (chStep o sp) acc).1.V.err = none ∧
      (l.foldl (chStep o sp) acc).1.V.func = okF f ∧
      (l.foldl (chStep o sp) acc).2.2.length = acc.2.2.length + l.length := by
  intro l
  induction l with
  | nil => intro acc he hf; exact ⟨he, hf, rfl⟩
  | cons vk t iht =>
      intro acc he hf
      rw [List.foldl_cons]
      obtain ⟨he2, hf2, hlen2⟩ := chStep_ok o sp acc vk he hf
      obtain ⟨he3, hf3, hlen3⟩ := iht (chStep o sp acc vk) he2 hf2
      refine ⟨he3, hf3, ?_⟩
      rw [hlen3, hlen2, List.length_cons]
      omega

theorem chCentroid_ok {f : Key → ℚ} (ctr : Key) (r1 : Cmplx × Cell × List Key)
    (he : r1.1.V.err = none) (hf : r1.1.V.func = okF f) :
    (chCentroid ctr r1).2.2.length = r1.2.2.length + 1 := by
  simp only [chCentroid]
  obtain ⟨he2, hf2⟩ := lookup_okF he hf ctr
  have hne : ¬ (lookup r1.1.V ctr).err.isSome = true := by rw [he2]; simp
  rw [if_neg hne]
  simp

theorem chVNew_length {f : Key → ℚ} (c : Cmplx) (he : c.V.err = none)
    (hf : c.V.func = okF f) (o sp : Key) (g : Nat) (h1 h2 : Option Int) :
    (chVNew c o sp g h1 h2).length = c.C0.C.dropLast.length + 1 := by
  unfold chVNew
  obtain ⟨he2, hf2, hlen2⟩ := chStep_fold o sp f c.C0.C.dropLast
    (c, chNewCell g h1 h2 o sp, []) he hf
  rw [chCentroid_ok (chCtr o sp) _ he2 hf2, hlen2]
  simp

theorem symList_length (d t : Nat) : (symList d t).length = t + 2 := by
  unfold symList
  rw [List.length_append, List.length_map, List.length_range]
  show 2 + t = t + 2
  omega

theorem initComplex_facts (d : Nat) (f : Key → ℚ) (sym : Bool)
    (hnd : (keysOf (nCube d sym (emptyVC (okF f) none)).1.V).Nodup) :
    skel (initComplex d (okF f) sym none).V =
      skel (nCube d sym (emptyVC (okF f) none)).1.V ∧
    (initComplex d (okF f) sym none).V.Index =
      (nCube d sym (emptyVC (okF f) none)).1.V.Index ∧
    (initComplex d (okF f) sym none).V.err =
      (nCube d sym (emptyVC (okF f) none)).1.V.err ∧
    (initComplex d (okF f) sym none).V.func =
      (nCube d sym (emptyVC (okF f) none)).1.V.func ∧
    (nnClosed (nCube d sym (emptyVC (okF f) none)).1.V →
      nnClosed (initComplex d (okF f) sym none).V) ∧
    (initComplex d (okF f) sym none).C0.C =
      (nCube d sym (emptyVC (okF f) none)).1.C0C := by
  obtain ⟨hsk, hI, he, hf, hnn, hC⟩ := homology_group_rank_skel
    (nCube d sym (emptyVC (okF f) none)).1.V
    { p_gen := 0, p_hgr := some 0, p_hgr_h := some 0, hg_n := none, C := (nCube d sym (emptyVC (okF f) none)).1.C0C, origin := (nCube d sym (emptyVC (okF f) none)).2.1, suprenum := (nCube d sym (emptyVC (okF f) none)).2.2, centroid := if sym = true then (nCube d sym (emptyVC (okF f) none)).1.C0C.getLast? else none }
    hnd
  exact ⟨hsk, hI, he, hf, hnn, hC⟩

/-- C2: for every positive dimension `d`, the non-symmetric initial complex
stores exactly `2 ^ d` distinct coordinate keys in the vertex cache, the
initial cell's vertex list is exactly the cache key list, and the
symmetric construction stores exactly `d + 1` distinct keys. -/
theorem c2_initial_vertex_counts (d : Nat) (f : Key → ℚ) (hd : 0 < d) :
    (keysOf (cND d f).V).length = 2 ^ d ∧
    (cND d f).C0.C = keysOf (cND d f).V ∧
    (keysOf (cND d f).V).Nodup ∧
    (keysOf (cSym d f).V).length = d + 1 ∧
    (cSym d f).C0.C = keysOf (cSym d f).V ∧
    (keysOf (cSym d f).V).Nodup := by
  obtain ⟨hIn, hcov⟩ := nCube_nonsym d f none
  obtain ⟨hsk, hI, he, hf, hnn, hC⟩ := initComplex_facts d f false hIn.vinv.key_nodup
  obtain ⟨hIs, hkeysS⟩ := nCube_sym d f none hd
  obtain ⟨hsk2, hI2, he2, hf2, hnn2, hC2⟩ := initComplex_facts d f true hIs.vinv.key_nodup
  refine ⟨?_, ?_, ?_, ?_, ?_, ?_⟩
  · show (keysOf (initComplex d (okF f) false none).V).length = 2 ^ d
    rw [keysOf_eq_of_skel hsk]
    exact keys_count hIn.vinv.key_nodup hIn.vinv.binary (fun S hS => hcov S hS)
  · show (initComplex d (okF f) false none).C0.C =
      keysOf (initComplex d (okF f) false none).V
    rw [hC, keysOf_eq_of_skel hsk]
    exact hIn.c0_keys
  · show (keysOf (initComplex d (okF f) false none).V).Nodup
    rw [keysOf_eq_of_skel hsk]
    exact hIn.vinv.key_nodup
  · show (keysOf (initComplex d (okF f) true none).V).length = d + 1
    rw [keysOf_eq_of_skel hsk2, hkeysS, symList_length]
    omega
  · show (initComplex d (okF f) true none).C0.C =
      keysOf (initComplex d (okF f) true none).V
    rw [hC2, keysOf_eq_of_skel hsk2]
    exact hIs.c0_keys
  · show (keysOf (initComplex d (okF f) true none).V).Nodup
    rw [keysOf_eq_of_skel hsk2]
    exact hIs.vinv.key_nodup

theorem c2_initial_vertex_counts_witness :
    0 < 2 ∧
    ((keysOf (cND 2 (fun _ => 0)).V).length = 2 ^ 2 ∧
     (cND 2 (fun _ => 0)).C0.C = keysOf (cND 2 (fun _ => 0)).V ∧
     (keysOf (cND 2 (fun _ => 0)).V).Nodup ∧
     (keysOf (cSym 2 (fun _ => 0)).V).length = 2 + 1 ∧
     (cSym 2 (fun _ => 0)).C0.C = keysOf (cSym 2 (fun _ => 0)).V ∧
     (keysOf (cSym 2 (fun _ => 0)).V).Nodup) :=
  ⟨by decide, c2_initial_vertex_counts 2 (fun _ => 0) (by decide)⟩

/-- C10: in the non-symmetric initial complex the vertex at position `i` of
the initial cell's ordered vertex list has cache index `I = i`; every index
in the adjacency template `graph` is a valid position into the `V_new` list
built by `construct_hypercube` (whose length always equals the initial
cell's vertex count), so replaying a template entry accesses valid child
vertices. -/
theorem c10_index_invariant_template_valid (d : Nat) (f : Key → ℚ) :
    (∀ i : Fin (cND d f).C0.C.length,
        IOf (cND d f).V ((cND d f).C0.C.get i) = ((i : Nat) : Int)) ∧
    (cND d f).graph.length = (cND d f).C0.C.length ∧
    (∀ row ∈ (cND d f).graph, ∀ j ∈ row,
        0 ≤ j ∧ j < ((cND d f).C0.C.length : Int)) ∧
    (∀ (o sp : Key) (g : Nat) (hgr ph : Option Int),
        (chVNew (cND d f) o sp g hgr ph).length = (cND d f).C0.C.length) ∧
    (∀ (o sp : Key) (g : Nat) (hgr ph : Option Int), ∀ row ∈ (cND d f).graph,
        ∀ j ∈ row, (pyGet? (chVNew (cND d f) o sp g hgr ph) j).isSome = true) := by
  obtain ⟨hIn, hcov⟩ := nCube_nonsym d f none
  obtain ⟨hsk, hI, he, hf, hnn, hC⟩ := initComplex_facts d f false hIn.vinv.key_nodup
  have hV : VInv d f (initComplex d (okF f) false none).V :=
    VInv_of_skel hIn.vinv hsk hI he hf (hnn hIn.vinv.nn_closed)
  have hkeys : keysOf (initComplex d (okF f) false none).V =
      keysOf (nCube d false (emptyVC (okF f) none)).1.V := keysOf_eq_of_skel hsk
  have hCC : (initComplex d (okF f) false none).C0.C =
      keysOf (initComplex d (okF f) false none).V := by
    rw [hC, hkeys]; exact hIn.c0_keys
  have hlenC : (initComplex d (okF f) false none).C0.C.length =
      (initComplex d (okF f) false none).V.cache.length := by
    rw [hCC]
    show ((initComplex d (okF f) false none).V.cache.map (fun v => v.x)).length = _
    rw [List.length_map]
  have hLpos : 0 < (initComplex d (okF f) false none).C0.C.length := by
    have hxmem : XF d ∅ ∈ keysOf (initComplex d (okF f) false none).V := by
      rw [hkeys]
      exact hcov ∅ (Finset.empty_subset _)
    rw [hCC]
    exact List.length_pos.2 (List.ne_nil_of_mem hxmem)
  have parta : ∀ i : Fin (initComplex d (okF f) false none).C0.C.length,
      IOf (initComplex d (okF f) false none).V
        ((initComplex d (okF f) false none).C0.C.get i) = ((i : Nat) : Int) := by
    intro i
    have hi2 : (i : Nat) < (initComplex d (okF f) false none).V.cache.length :=
      hlenC ▸ i.isLt
    have hq1 : (initComplex d (okF f) false none).C0.C.get? (i : Nat) =
        (keysOf (initComplex d (okF f) false none).V).get? (i : Nat) :=
      congrArg (fun l => l.get? (i : Nat)) hCC
    have hq2 : (keysOf (initComplex d (okF f) false none).V).get? (i : Nat) =
        some (((initComplex d (okF f) false none).V.cache.get ⟨i, hi2⟩).x) := by
      show ((initComplex d (okF f) false none).V.cache.map
        (fun v => v.x)).get? (i : Nat) = _
      rw [List.get?_map, List.get?_eq_get hi2]
      rfl
    have hq3 := hq1.trans hq2
    rw [List.get?_eq_get i.isLt] at hq3
    rw [Option.some.inj hq3]
    have hfv : findVertex (initComplex d (okF f) false none).V
        (((initComplex d (okF f) false none).V.cache.get ⟨i, hi2⟩).x) =
        some ((initComplex d (okF f) false none).V.cache.get ⟨i, hi2⟩) :=
      findVertex_unique hV.key_nodup (List.get_mem _ _ _) rfl
    unfold IOf
    rw [hfv]
    exact hV.idx ⟨i, hi2⟩
  have hbound : ∀ w ∈ keysOf (initComplex d (okF f) false none).V,
      0 ≤ IOf (initComplex d (okF f) false none).V w ∧
      IOf (initComplex d (okF f) false none).V w <
        ((initComplex d (okF f) false none).C0.C.length : Int) := by
    intro w hw
    have hsome : (findVertex (initComplex d (okF f) false none).V w).isSome = true :=
      (findVertex_isSome_iff _ w).2 hw
    obtain ⟨u, hu⟩ := Option.isSome_iff_exists.1 hsome
    have huc : u ∈ (initComplex d (okF f) false none).V.cache :=
      List.mem_of_find?_eq_some hu
    obtain ⟨p, hp⟩ := List.mem_iff_get.1 huc
    have hIp : u.I = ((p : Nat) : Int) := by rw [← hp]; exact hV.idx p
    have hIOf : IOf (initComplex d (okF f) false none).V w = u.I := by
      unfold IOf
      rw [hu]
    constructor
    · rw [hIOf, hIp]
      exact Int.natCast_nonneg _
    · rw [hIOf, hIp, hlenC]
      exact_mod_cast p.isLt
  have partc : ∀ row ∈ (initComplex d (okF f) false none).graph, ∀ j ∈ row,
      0 ≤ j ∧ j < ((initComplex d (okF f) false none).C0.C.length : Int) := by
    intro row hrow j hj
    have hg : (initComplex d (okF f) false none).graph =
        graphMap (initComplex d (okF f) false none).V
          (initComplex d (okF f) false none).C0.C := rfl
    rw [hg] at hrow
    obtain ⟨k, hk, hrowe⟩ := List.mem_map.1 hrow
    rw [← hrowe] at hj
    obtain ⟨w, hw, hje⟩ := List.mem_map.1 hj
    rw [← hje]
    have hwk : w ∈ keysOf (initComplex d (okF f) false none).V := by
      cases hfk : findVertex (initComplex d (okF f) false none).V k with
      | none =>
          have hnil : nnOf (initComplex d (okF f) false none).V k = [] := by
            unfold nnOf; rw [hfk]
          rw [hnil] at hw
          cases hw
      | some v =>
          have hnnk : nnOf (initComplex d (okF f) false none).V k = v.nn := by
            unfold nnOf; rw [hfk]
          rw [hnnk] at hw
          exact hV.nn_closed v (List.mem_of_find?_eq_some hfk) w hw
    exact hbound w hwk
  have hfinerr : (initComplex d (okF f) false none).V.err = none :=
    he.trans hIn.vinv.err_none
  have hfinfunc : (initComplex d (okF f) false none).V.func = okF f :=
    hf.trans hIn.vinv.func_eq
  have partd : ∀ (o sp : Key) (g : Nat) (hgr ph : Option Int),
      (chVNew (initComplex d (okF f) false none) o sp g hgr ph).length =
      (initComplex d (okF f) false none).C0.C.length := by
    intro o sp g hgr ph
    rw [chVNew_length (initComplex d (okF f) false none) hfinerr hfinfunc o sp g hgr ph,
        List.length_dropLast]
    omega
  refine ⟨parta, ?_, partc, partd, ?_⟩
  · show (graphMap (initComplex d (okF f) false none).V
        (initComplex d (okF f) false none).C0.C).length =
      (initComplex d (okF f) false none).C0.C.length
    unfold graphMap
    rw [List.length_map]
  · intro o sp g hgr ph row hrow j hj
    obtain ⟨hj0, hjlt⟩ := partc row hrow j hj
    have hlen := partd o sp g hgr ph
    show (pyGet? (chVNew (initComplex d (okF f) false none) o sp g hgr ph) j).isSome = true
    unfold pyGet?
    rw [if_pos hj0]
    have hlt : j.toNat <
        (chVNew (initComplex d (okF f) false none) o sp g hgr ph).length := by
      rw [hlen]
      omega
    rw [List.get?_eq_get hlt]
    rfl

theorem c10_index_invariant_template_valid_witness :
    (0 ≤ (1 : Int) ∧ (1 : Int) < ((cND 1 (fun _ => 0)).C0.C.length : Int)) ∧
    (chVNew (cND 1 (fun _ => 0)) [0] [1] 1 none none).length =
      (cND 1 (fun _ => 0)).C0.C.length ∧
    (pyGet? (chVNew (cND 1 (fun _ => 0)) [0] [1] 1 none none) 1).isSome = true :=
  ⟨(c10_index_invariant_template_valid 1 (fun _ => 0)).2.2.1 [1] (by decide) 1 (by decide),
   (c10_index_invariant_template_valid 1 (fun _ => 0)).2.2.2.1 [0] [1] 1 none none,
   (c10_index_invariant_template_valid 1 (fun _ => 0)).2.2.2.2 [0] [1] 1 none none [1]
     (by decide) 1 (by decide)⟩
